import Mathlib

set_option maxRecDepth 100000
set_option maxHeartbeats 1000000

/-!
Shallow embedding of the BMP steganography tool (`src/main.rs`).

The embedding covers the core engine: the bit-level file reader/writer
(`FileBitReader`, `FileBitWriter`), the word-addressable image stream
(`ImageDataStream`) with its 7-bit word packed 3/2/2 across the low bits of
the red/green/blue channels, and the header/body framing protocol
(`write_stream` / `read_stream`).

Machine integers are modelled as `Nat`.  Explicit `% 2 ^ 32` / `% 2 ^ 64`
appear exactly where the source performs an `as u32` cast or a `u64`
multiplication that could wrap.  Channel bytes carry `< 256` hypotheses in
theorems where the `u8` width matters.  Fallible operations (`Result` in the
source: file reads past EOF, `assert!` contract violations) return `Option`.
-/

/-- A pixel: three 8-bit colour channels (`struct Pixel { r, g, b }`). -/
structure Pixel where
  r : Nat
  g : Nat
  b : Nat
deriving Repr, DecidableEq

/-- The pixel grid held by the `BMP` structure: `width`, `height` and the
row-major pixel vector.  `Image::pixel(x, y)` indexes `pixels[x + y * width]`. -/
structure Image where
  width : Nat
  height : Nat
  pixels : List Pixel
deriving Repr, DecidableEq

/-- `Image::pixel`: `&self.pixels[(x + y * self.width) as usize]`. -/
def Image.pixel (img : Image) (x y : Nat) : Pixel :=
  img.pixels.getD (x + y * img.width) ⟨0, 0, 0⟩

/-- `Image::pixel_mut` followed by an in-place update: replaces the pixel at
`x + y * width`.  (`List.set` is a no-op out of range; the theorems that need
in-bounds behaviour carry the bound as a hypothesis.) -/
def Image.setPixel (img : Image) (x y : Nat) (p : Pixel) : Image :=
  { img with pixels := img.pixels.set (x + y * img.width) p }

/-- `struct ImageDataStream<T: Image> { image: T }`, instantiated at the
concrete pixel grid. -/
structure ImageDataStream where
  image : Image
deriving Repr, DecidableEq

namespace ImageDataStream

/-- `ImageDataStream::new`. -/
def new (image : Image) : ImageDataStream := ⟨image⟩

/-- `ImageDataStream::pixel`: the pixel for a linear word address is
`image.pixel(addr % width, addr / height)` — note the division by `height`. -/
def pixel (s : ImageDataStream) (addr : Nat) : Pixel :=
  s.image.pixel (addr % s.image.width) (addr / s.image.height)

/-- The flat index into `pixels` that `ImageDataStream::pixel`/`pixel_mut`
reach through `Image::pixel`: `(addr % width) + (addr / height) * width`. -/
def pixelIndex (s : ImageDataStream) (addr : Nat) : Nat :=
  (addr % s.image.width) + (addr / s.image.height) * s.image.width

/-- `ImageDataStream::read_word`: repack the low channel bits into a 7-bit
word, `(r & R_MASK) << R_POS | (g & G_MASK) << G_POS | (b & B_MASK) << B_POS`
with `R_MASK = 7`, `G_MASK = B_MASK = 3`, `R_POS = 4`, `G_POS = 2`,
`B_POS = 0`. -/
def read_word (s : ImageDataStream) (addr : Nat) : Nat :=
  let p := s.pixel addr
  ((p.r &&& 7) <<< 4) ||| ((p.g &&& 3) <<< 2) ||| (p.b &&& 3)

/-- `ImageDataStream::write_word`: read-modify-write of the addressed pixel.
On `u8`, `!R_MASK = 0xF8` and `!G_MASK = !B_MASK = 0xFC`. -/
def write_word (s : ImageDataStream) (addr : Nat) (value : Nat) : ImageDataStream :=
  let p := s.pixel addr
  let p' : Pixel :=
    { r := (p.r &&& 0xF8) ||| ((value >>> 4) &&& 7)
      g := (p.g &&& 0xFC) ||| ((value >>> 2) &&& 3)
      b := (p.b &&& 0xFC) ||| (value &&& 3) }
  ⟨s.image.setPixel (addr % s.image.width) (addr / s.image.height) p'⟩

end ImageDataStream

/-! ### Generic bit-manipulation helpers -/

/-- OR-ing a shifted value into a number below the shift amount is addition:
the accumulation pattern `out |= bit << i` used throughout the source. -/
theorem lor_shiftLeft_eq_add {x : Nat} (y i : Nat) (hx : x < 2 ^ i) :
    x ||| (y <<< i) = x + y * 2 ^ i := by
  rw [Nat.lor_comm, Nat.shiftLeft_eq, Nat.mul_comm y (2 ^ i),
    ← Nat.mul_add_lt_is_or hx y]
  omega

/-- `x &&& (2 ^ n - 1)` is `x % 2 ^ n`, stated for the literal masks 7, 3, 127
used by the source. -/
theorem land_seven (x : Nat) : x &&& 7 = x % 8 := by
  have := Nat.and_pow_two_sub_one_eq_mod x 3
  norm_num at this
  exact this

theorem land_three (x : Nat) : x &&& 3 = x % 4 := by
  have := Nat.and_pow_two_sub_one_eq_mod x 2
  norm_num at this
  exact this

theorem land_127 (x : Nat) : x &&& 127 = x % 128 := by
  have := Nat.and_pow_two_sub_one_eq_mod x 7
  norm_num at this
  exact this

/-- Facts about `(r & 0xF8) | t` (the red-channel update of `write_word`)
for a channel byte `r < 256` and a 3-bit payload `t < 8`: the high five bits
are preserved, the low three bits become `t`, and the result is a byte. -/
theorem red_update_facts :
    ∀ r < 256, ∀ t < 8,
      ((r &&& 0xF8) ||| t) >>> 3 = r >>> 3 ∧
      ((r &&& 0xF8) ||| t) &&& 7 = t ∧
      (r &&& 0xF8) ||| t < 256 := by decide

/-- Facts about `(c & 0xFC) | t` (the green/blue-channel update of
`write_word`) for a channel byte `c < 256` and a 2-bit payload `t < 4`. -/
theorem gb_update_facts :
    ∀ c < 256, ∀ t < 4,
      ((c &&& 0xFC) ||| t) >>> 2 = c >>> 2 ∧
      ((c &&& 0xFC) ||| t) &&& 3 = t ∧
      (c &&& 0xFC) ||| t < 256 := by decide

/-- Setting an index to the value already stored there leaves a list
unchanged. -/
theorem List.set_getD_self {α : Type} {l : List α} {i : Nat} (h : i < l.length) (d : α) :
    l.set i (l.getD i d) = l := by
  apply List.ext_getElem?
  intro j
  rw [List.getElem?_set]
  by_cases hij : i = j
  · subst hij
    simp [h, List.getElem?_eq_getElem h]
  · simp [hij]

/-- Extracting with mask `c` from `(r & m) | t` returns `t` whenever `m` and
`c` are disjoint and `t` lies inside `c`. -/
theorem extract_low {m c : Nat} (r t : Nat) (hmc : m &&& c = 0) (htc : t &&& c = t) :
    ((r &&& m) ||| t) &&& c = t := by
  rw [Nat.and_comm _ c, Nat.and_or_distrib_left, Nat.and_comm c (r &&& m),
    Nat.and_assoc, hmc, Nat.and_zero, Nat.zero_or, Nat.and_comm c t, htc]

/-- Unpacking facts for a packed 3/2/2 word built from bounded fields. -/
theorem word_pack_facts :
    ∀ a < 8, ∀ b < 4, ∀ c < 4,
      (((a <<< 4) ||| (b <<< 2) ||| c) >>> 4) &&& 7 = a ∧
      (((a <<< 4) ||| (b <<< 2) ||| c) >>> 2) &&& 3 = b ∧
      ((a <<< 4) ||| (b <<< 2) ||| c) &&& 3 = c ∧
      (a <<< 4) ||| (b <<< 2) ||| c < 128 := by decide

/-- Repacking the three extracted fields of a byte reproduces its low 7 bits. -/
theorem pack_extract_bounded :
    ∀ u < 128, ((u / 16 % 8) <<< 4) ||| ((u / 4 % 4) <<< 2) ||| (u % 4) = u := by decide

theorem pack_extract_lor (v : Nat) :
    (((v >>> 4) &&& 7) <<< 4) ||| (((v >>> 2) &&& 3) <<< 2) ||| (v &&& 3) = v &&& 127 := by
  have h4 : v >>> 4 = v / 16 := by rw [Nat.shiftRight_eq_div_pow]
  have h2 : v >>> 2 = v / 4 := by rw [Nat.shiftRight_eq_div_pow]
  rw [h4, h2]
  simp only [land_seven, land_three, land_127]
  have hr : v / 16 % 8 = v % 128 / 16 % 8 := by omega
  have hg : v / 4 % 4 = v % 128 / 4 % 4 := by omega
  have hb : v % 4 = v % 128 % 4 := by omega
  rw [hr, hg, hb]
  exact pack_extract_bounded (v % 128) (by omega)

/-- A byte is reassembled from its masked high and low parts. -/
theorem reassemble_byte :
    (∀ r < 256, (r &&& 0xF8) ||| (r &&& 7) = r) ∧
    (∀ c < 256, (c &&& 0xFC) ||| (c &&& 3) = c) := by decide

namespace ImageDataStream

theorem pixel_eq_getD (s : ImageDataStream) (addr : Nat) :
    s.pixel addr = s.image.pixels.getD (s.pixelIndex addr) ⟨0, 0, 0⟩ := rfl

theorem write_word_width (s : ImageDataStream) (addr v : Nat) :
    (s.write_word addr v).image.width = s.image.width := rfl

theorem write_word_height (s : ImageDataStream) (addr v : Nat) :
    (s.write_word addr v).image.height = s.image.height := rfl

theorem write_word_pixelIndex (s : ImageDataStream) (addr v a : Nat) :
    (s.write_word addr v).pixelIndex a = s.pixelIndex a := rfl

/-- The pixel list after `write_word`: the addressed flat index is replaced by
the updated pixel, everything else kept. -/
theorem write_word_pixels (s : ImageDataStream) (addr v : Nat) :
    (s.write_word addr v).image.pixels =
      s.image.pixels.set (s.pixelIndex addr)
        { r := ((s.pixel addr).r &&& 0xF8) ||| ((v >>> 4) &&& 7)
          g := ((s.pixel addr).g &&& 0xFC) ||| ((v >>> 2) &&& 3)
          b := ((s.pixel addr).b &&& 0xFC) ||| (v &&& 3) } := rfl

theorem write_word_length (s : ImageDataStream) (addr v : Nat) :
    (s.write_word addr v).image.pixels.length = s.image.pixels.length := by
  rw [write_word_pixels, List.length_set]

/-- `write_word` leaves every other flat index untouched. -/
theorem write_word_getD_ne (s : ImageDataStream) (addr v j : Nat) (d : Pixel)
    (h : j ≠ s.pixelIndex addr) :
    (s.write_word addr v).image.pixels.getD j d = s.image.pixels.getD j d := by
  rw [write_word_pixels]
  simp only [List.getD_eq_getElem?_getD]
  rw [List.getElem?_set_ne (Ne.symm h)]

/-- `read_word` at a different address (mapping to a different flat index) is
unaffected by `write_word`. -/
theorem read_word_write_word_ne (s : ImageDataStream) (addr v a : Nat)
    (h : s.pixelIndex a ≠ s.pixelIndex addr) :
    (s.write_word addr v).read_word a = s.read_word a := by
  have hp : (s.write_word addr v).pixel a = s.pixel a := by
    rw [pixel_eq_getD, pixel_eq_getD, write_word_pixelIndex, write_word_pixels]
    simp only [List.getD_eq_getElem?_getD]
    rw [List.getElem?_set_ne (Ne.symm h)]
  simp only [read_word, hp]

/-- The pixel written by an in-bounds `write_word`. -/
theorem pixel_write_word_self (s : ImageDataStream) (addr v : Nat)
    (h : s.pixelIndex addr < s.image.pixels.length) :
    (s.write_word addr v).pixel addr =
      { r := ((s.pixel addr).r &&& 0xF8) ||| ((v >>> 4) &&& 7)
        g := ((s.pixel addr).g &&& 0xFC) ||| ((v >>> 2) &&& 3)
        b := ((s.pixel addr).b &&& 0xFC) ||| (v &&& 3) } := by
  rw [pixel_eq_getD, write_word_pixelIndex, write_word_pixels]
  simp only [List.getD_eq_getElem?_getD]
  rw [List.getElem?_set_self h]
  rfl

/-- Reading back an in-bounds word returns the written value modulo 2^7. -/
theorem read_word_write_word_self (s : ImageDataStream) (addr v : Nat)
    (h : s.pixelIndex addr < s.image.pixels.length) :
    (s.write_word addr v).read_word addr = v &&& 127 := by
  rw [read_word, pixel_write_word_self s addr v h]
  simp only
  rw [extract_low _ _ (by decide) (by rw [Nat.and_assoc, Nat.and_self]),
    extract_low _ _ (by decide) (by rw [Nat.and_assoc, Nat.and_self]),
    extract_low _ _ (by decide) (by rw [Nat.and_assoc, Nat.and_self]),
    pack_extract_lor]

/-- Every word read out of a pixel is below 2^7. -/
theorem read_word_lt_128 (s : ImageDataStream) (addr : Nat) : s.read_word addr < 128 := by
  rw [read_word]
  have ha : (s.pixel addr).r &&& 7 < 8 := by rw [land_seven]; omega
  have hb : (s.pixel addr).g &&& 3 < 4 := by rw [land_three]; omega
  have hc : (s.pixel addr).b &&& 3 < 4 := by rw [land_three]; omega
  exact (word_pack_facts _ ha _ hb _ hc).2.2.2

end ImageDataStream

/-! ### Claims C3, C4, C5, C10: the word layer -/

/-- C3: the word-addressable stream locates the pixel for a linear address
`addr` at column `addr % width` and row `addr / height` — i.e. at flat index
`(addr % width) + (addr / height) * width` of the row-major pixel vector —
for reads and writes alike.  Concretely, on a 3×4 image address 3 lands on
flat index 0 (`3 % 3 + 3 / 4 * 3`), not on the row-major index 3. -/
theorem claim_C3_address_mapping :
    (∀ (img : Image) (addr : Nat),
      (ImageDataStream.new img).pixel addr =
        img.pixels.getD ((addr % img.width) + (addr / img.height) * img.width) ⟨0, 0, 0⟩) ∧
    (∀ (img : Image) (addr value j : Nat) (d : Pixel),
      j ≠ (addr % img.width) + (addr / img.height) * img.width →
      ((ImageDataStream.new img).write_word addr value).image.pixels.getD j d =
        img.pixels.getD j d) ∧
    (ImageDataStream.new ⟨3, 4, ⟨7, 3, 3⟩ :: List.replicate 11 ⟨0, 0, 0⟩⟩).pixelIndex 3 = 0 ∧
    (ImageDataStream.new ⟨3, 4, ⟨7, 3, 3⟩ :: List.replicate 11 ⟨0, 0, 0⟩⟩).read_word 3 = 127 := by
  refine ⟨fun img addr => rfl, fun img addr value j d h => ?_, by decide, by decide⟩
  exact ImageDataStream.write_word_getD_ne ⟨img⟩ addr value j d h

theorem claim_C3_address_mapping_witness :
    ((ImageDataStream.new ⟨3, 4, List.replicate 12 ⟨9, 9, 9⟩⟩).write_word 3 5).image.pixels.getD
        1 ⟨0, 0, 0⟩ =
      (List.replicate 12 (⟨9, 9, 9⟩ : Pixel)).getD 1 ⟨0, 0, 0⟩ :=
  claim_C3_address_mapping.2.1 ⟨3, 4, List.replicate 12 ⟨9, 9, 9⟩⟩ 3 5 1 ⟨0, 0, 0⟩ (by decide)

/-- C4: an in-bounds `write_word(addr, read_word(addr))` leaves the pixel
list completely unchanged, and for every written value the high 5/6/6 bits of
the addressed pixel's red/green/blue channels are preserved byte-identically
(only the low 3/2/2 bits change). -/
theorem claim_C4_write_word_frame (s : ImageDataStream) (addr : Nat)
    (hin : s.pixelIndex addr < s.image.pixels.length)
    (hr : (s.pixel addr).r < 256) (hg : (s.pixel addr).g < 256)
    (hb : (s.pixel addr).b < 256) :
    (s.write_word addr (s.read_word addr)).image.pixels = s.image.pixels ∧
    ∀ v : Nat,
      ((s.write_word addr v).pixel addr).r >>> 3 = (s.pixel addr).r >>> 3 ∧
      ((s.write_word addr v).pixel addr).g >>> 2 = (s.pixel addr).g >>> 2 ∧
      ((s.write_word addr v).pixel addr).b >>> 2 = (s.pixel addr).b >>> 2 := by
  have ha : (s.pixel addr).r &&& 7 < 8 := by rw [land_seven]; omega
  have hbg : (s.pixel addr).g &&& 3 < 4 := by rw [land_three]; omega
  have hbc : (s.pixel addr).b &&& 3 < 4 := by rw [land_three]; omega
  have hw := word_pack_facts _ ha _ hbg _ hbc
  constructor
  · rw [ImageDataStream.write_word_pixels]
    simp only [ImageDataStream.read_word]
    rw [hw.1, hw.2.1, hw.2.2.1, reassemble_byte.1 _ hr, reassemble_byte.2 _ hg,
      reassemble_byte.2 _ hb]
    have hp : (⟨(s.pixel addr).r, (s.pixel addr).g, (s.pixel addr).b⟩ : Pixel) =
        s.pixel addr := rfl
    rw [hp, ImageDataStream.pixel_eq_getD, List.set_getD_self hin]
  · intro v
    have htr : (v >>> 4) &&& 7 < 8 := by rw [land_seven]; omega
    have htg : (v >>> 2) &&& 3 < 4 := by rw [land_three]; omega
    have htb : v &&& 3 < 4 := by rw [land_three]; omega
    rw [ImageDataStream.pixel_write_word_self s addr v hin]
    exact ⟨(red_update_facts _ hr _ htr).1, (gb_update_facts _ hg _ htg).1,
      (gb_update_facts _ hb _ htb).1⟩

theorem claim_C4_write_word_frame_witness :
    ((ImageDataStream.new ⟨1, 1, [⟨200, 100, 50⟩]⟩).write_word 0
        ((ImageDataStream.new ⟨1, 1, [⟨200, 100, 50⟩]⟩).read_word 0)).image.pixels =
      (ImageDataStream.new ⟨1, 1, [⟨200, 100, 50⟩]⟩).image.pixels :=
  (claim_C4_write_word_frame (ImageDataStream.new ⟨1, 1, [⟨200, 100, 50⟩]⟩) 0
    (by decide) (by decide) (by decide) (by decide)).1

/-- C5: `read_word` packs the low channel bits into a 7-bit value with
bits [6:4] the red low 3 bits, bits [3:2] the green low 2 bits and bits [1:0]
the blue low 2 bits; the result is always below 2^7. -/
theorem claim_C5_read_word_format (s : ImageDataStream) (addr : Nat)
    (hin : s.pixelIndex addr < s.image.pixels.length) :
    (s.read_word addr >>> 4) &&& 7 = (s.pixel addr).r &&& 7 ∧
    (s.read_word addr >>> 2) &&& 3 = (s.pixel addr).g &&& 3 ∧
    s.read_word addr &&& 3 = (s.pixel addr).b &&& 3 ∧
    s.read_word addr < 128 := by
  have ha : (s.pixel addr).r &&& 7 < 8 := by rw [land_seven]; omega
  have hbg : (s.pixel addr).g &&& 3 < 4 := by rw [land_three]; omega
  have hbc : (s.pixel addr).b &&& 3 < 4 := by rw [land_three]; omega
  have hw := word_pack_facts _ ha _ hbg _ hbc
  simp only [ImageDataStream.read_word]
  exact hw

theorem claim_C5_read_word_format_witness :
    ((ImageDataStream.new ⟨1, 1, [⟨0xAB, 0xCD, 0xEF⟩]⟩).read_word 0 >>> 4) &&& 7 =
      ((ImageDataStream.new ⟨1, 1, [⟨0xAB, 0xCD, 0xEF⟩]⟩).pixel 0).r &&& 7 :=
  (claim_C5_read_word_format (ImageDataStream.new ⟨1, 1, [⟨0xAB, 0xCD, 0xEF⟩]⟩) 0
    (by decide)).1

/-- C10: an in-bounds `write_word(addr, v)` followed by `read_word(addr)`
returns `v &&& 0x7F` — bit 7 of the written byte is silently discarded — and
`read_word` always returns a value strictly below 2^7. -/
theorem claim_C10_write_then_read (s : ImageDataStream) (addr v : Nat)
    (h : s.pixelIndex addr < s.image.pixels.length) :
    (s.write_word addr v).read_word addr = v &&& 127 ∧
    ∀ (t : ImageDataStream) (a : Nat), t.read_word a < 128 :=
  ⟨ImageDataStream.read_word_write_word_self s addr v h,
    fun t a => ImageDataStream.read_word_lt_128 t a⟩

theorem claim_C10_write_then_read_witness :
    ((ImageDataStream.new ⟨1, 1, [⟨0, 0, 0⟩]⟩).write_word 0 200).read_word 0 = 200 &&& 127 :=
  (claim_C10_write_then_read (ImageDataStream.new ⟨1, 1, [⟨0, 0, 0⟩]⟩) 0 200 (by decide)).1

/-! ### Bit-level file reader and writer -/

/-- `struct FileBitReader`: the backing file is a byte list; `size` is the
file length in bytes captured at `open`; `bit_position` is the absolute bit
offset.  Failed reads (`Err` in the source) are `none`. -/
structure FileBitReader where
  size : Nat
  data : List Nat
  bit_position : Nat
deriving Repr, DecidableEq

namespace FileBitReader

/-- `FileBitReader::open`: records the file size and starts at bit 0. -/
def openFile (data : List Nat) : FileBitReader :=
  { size := data.length, data := data, bit_position := 0 }

/-- `FileBitReader::read_bit`: seek to byte `bit_position / 8`; reading that
byte fails past end of file; otherwise extract bit `bit_position % 8` and
advance the position. -/
def read_bit (r : FileBitReader) : Option (Nat × FileBitReader) :=
  if r.bit_position / 8 < r.data.length then
    some ((r.data.getD (r.bit_position / 8) 0 >>> (r.bit_position % 8)) &&& 1,
      { r with bit_position := r.bit_position + 1 })
  else
    none

/-- The loop of `read_bits`: `out |= read_bit()? << i`, `n` more iterations
starting at shift `i`. -/
def readBitsAux : FileBitReader → Nat → Nat → Nat → Option (Nat × FileBitReader)
  | r, 0, _, out => some (out, r)
  | r, n + 1, i, out =>
    match r.read_bit with
    | none => none
    | some (b, r') => r'.readBitsAux n (i + 1) (out ||| (b <<< i))

/-- `FileBitReader::read_bits(len)`: `assert!(len > 0 && len <= 8)` — a
violated assertion aborts, modelled as `none` — then the accumulation loop. -/
def read_bits (r : FileBitReader) (len : Nat) : Option (Nat × FileBitReader) :=
  if 0 < len ∧ len ≤ 8 then r.readBitsAux len 0 0 else none

end FileBitReader

/-- `struct FileBitWriter`: the flushed output bytes, the absolute bit
position, and the partial-byte accumulator (`byte: Option<u8>`). -/
structure FileBitWriter where
  out : List Nat
  bit_position : Nat
  byte : Option Nat
deriving Repr, DecidableEq

namespace FileBitWriter

/-- `FileBitWriter::open`: truncates the output, bit position 0, empty
accumulator. -/
def openFile : FileBitWriter := { out := [], bit_position := 0, byte := none }

/-- `FileBitWriter::flush`: append the accumulator byte, if present, to the
output and clear it. -/
def flush (w : FileBitWriter) : FileBitWriter :=
  match w.byte with
  | some b => { w with out := w.out ++ [b], byte := none }
  | none => w

/-- `FileBitWriter::write_bit`: OR the bit into the accumulator at position
`bit_position % 8`, advance the position, and flush when it reaches a byte
boundary (`bit_position != 0 && bit_position % 8 == 0`). -/
def write_bit (w : FileBitWriter) (bit : Nat) : FileBitWriter :=
  let byte : Nat :=
    match w.byte with
    | some b => b ||| (bit <<< (w.bit_position % 8))
    | none => bit
  let w' : FileBitWriter :=
    { w with byte := some byte, bit_position := w.bit_position + 1 }
  if w'.bit_position ≠ 0 ∧ w'.bit_position % 8 = 0 then w'.flush else w'

/-- The loop of `write_bits`: write the low bit, shift right, repeat. -/
def writeBitsAux : FileBitWriter → Nat → Nat → FileBitWriter
  | w, _, 0 => w
  | w, bits, n + 1 => (w.write_bit (bits &&& 1)).writeBitsAux (bits >>> 1) n

/-- `FileBitWriter::write_bits(bits, len)`: `assert!(len > 0 && len <= 8)`
(`none` on violation), then `len` single-bit writes, LSB first. -/
def write_bits (w : FileBitWriter) (bits len : Nat) : Option FileBitWriter :=
  if 0 < len ∧ len ≤ 8 then some (w.writeBitsAux bits len) else none

end FileBitWriter

/-! ### Bit-stream semantics -/

/-- Bit `pos` of a byte file, least-significant-bit first within each byte. -/
def fileBit (data : List Nat) (pos : Nat) : Nat :=
  (data.getD (pos / 8) 0 >>> (pos % 8)) &&& 1

/-- The value of `n` consecutive bits of a file starting at `pos`, LSB
first. -/
def bitsVal (data : List Nat) : Nat → Nat → Nat
  | _, 0 => 0
  | pos, n + 1 => fileBit data pos + 2 * bitsVal data (pos + 1) n

/-- The list of `n` consecutive bits of a file starting at `pos`. -/
def bitSeq (data : List Nat) (pos n : Nat) : List Nat :=
  (List.range n).map (fun k => fileBit data (pos + k))

/-- The value of a byte assembled from a list of bits, LSB first. -/
def byteOfBits : List Nat → Nat
  | [] => 0
  | b :: bs => b + 2 * byteOfBits bs

/-- Pack a bit sequence into bytes of 8, LSB first within each byte, the
final byte possibly partial. -/
def packBits : List Nat → List Nat
  | [] => []
  | b :: bs => byteOfBits ((b :: bs).take 8) :: packBits ((b :: bs).drop 8)
termination_by l => l.length
decreasing_by simp; omega

/-- The low `n` bits of a number as a list, LSB first. -/
def bitsOfNum : Nat → Nat → List Nat
  | _, 0 => []
  | v, n + 1 => (v &&& 1) :: bitsOfNum (v >>> 1) n

theorem fileBit_le_one (data : List Nat) (pos : Nat) : fileBit data pos ≤ 1 := by
  unfold fileBit
  rw [Nat.and_one_is_mod]
  omega

theorem bitSeq_length (data : List Nat) (pos n : Nat) : (bitSeq data pos n).length = n := by
  simp [bitSeq]

theorem bitSeq_succ (data : List Nat) (pos n : Nat) :
    bitSeq data pos (n + 1) = fileBit data pos :: bitSeq data (pos + 1) n := by
  unfold bitSeq
  rw [List.range_succ_eq_map, List.map_cons, List.map_map]
  congr 1
  apply List.map_congr_left
  intro k _
  simp only [Function.comp_apply, Nat.succ_eq_add_one]
  congr 1
  omega

theorem bitSeq_append (data : List Nat) (pos a b : Nat) :
    bitSeq data pos (a + b) = bitSeq data pos a ++ bitSeq data (pos + a) b := by
  unfold bitSeq
  rw [List.range_add, List.map_append, List.map_map]
  congr 1
  apply List.map_congr_left
  intro k _
  simp only [Function.comp_apply]
  congr 1
  omega

theorem bitSeq_mem_le_one (data : List Nat) (pos n : Nat) :
    ∀ b ∈ bitSeq data pos n, b ≤ 1 := by
  intro b hb
  unfold bitSeq at hb
  obtain ⟨k, _, rfl⟩ := List.mem_map.1 hb
  exact fileBit_le_one data _

theorem bitsVal_lt (data : List Nat) : ∀ (n pos : Nat), bitsVal data pos n < 2 ^ n := by
  intro n
  induction n with
  | zero => intro pos; simp [bitsVal]
  | succ n ih =>
    intro pos
    have h1 := fileBit_le_one data pos
    have h2 := ih (pos + 1)
    unfold bitsVal
    have : 2 ^ (n + 1) = 2 * 2 ^ n := by rw [Nat.pow_succ]; ring
    omega

theorem byteOfBits_lt : ∀ (bs : List Nat), (∀ b ∈ bs, b ≤ 1) →
    byteOfBits bs < 2 ^ bs.length := by
  intro bs
  induction bs with
  | nil => intro _; simp [byteOfBits]
  | cons b bs ih =>
    intro h
    have h1 : b ≤ 1 := h b (List.mem_cons_self _ _)
    have h2 := ih (fun x hx => h x (List.mem_cons_of_mem b hx))
    unfold byteOfBits
    have : 2 ^ (b :: bs).length = 2 * 2 ^ bs.length := by
      rw [List.length_cons, Nat.pow_succ]; ring
    omega

theorem byteOfBits_append_singleton (xs : List Nat) (b : Nat) :
    byteOfBits (xs ++ [b]) = byteOfBits xs + b * 2 ^ xs.length := by
  induction xs with
  | nil => simp [byteOfBits]
  | cons a xs ih =>
    rw [List.cons_append]
    unfold byteOfBits
    rw [ih, List.length_cons]
    have : 2 ^ (xs.length + 1) = 2 * 2 ^ xs.length := by rw [Nat.pow_succ]; ring
    -- avoid nonlinear reasoning: treat 2 ^ xs.length as an atom
    rw [this]
    ring

theorem bitsVal_eq_byteOfBits (data : List Nat) :
    ∀ (n pos : Nat), bitsVal data pos n = byteOfBits (bitSeq data pos n) := by
  intro n
  induction n with
  | zero => intro pos; simp [bitsVal, bitSeq, byteOfBits]
  | succ n ih =>
    intro pos
    rw [bitSeq_succ]
    unfold bitsVal byteOfBits
    rw [ih (pos + 1)]

theorem bitsOfNum_length : ∀ (n v : Nat), (bitsOfNum v n).length = n := by
  intro n
  induction n with
  | zero => intro v; rfl
  | succ n ih => intro v; unfold bitsOfNum; rw [List.length_cons, ih]

theorem bitsOfNum_mem_le_one : ∀ (n v : Nat), ∀ b ∈ bitsOfNum v n, b ≤ 1 := by
  intro n
  induction n with
  | zero => intro v b hb; simp [bitsOfNum] at hb
  | succ n ih =>
    intro v b hb
    unfold bitsOfNum at hb
    rcases List.mem_cons.1 hb with h | h
    · subst h; rw [Nat.and_one_is_mod]; omega
    · exact ih _ b h

theorem byteOfBits_bitsOfNum : ∀ (n v : Nat), byteOfBits (bitsOfNum v n) = v % 2 ^ n := by
  intro n
  induction n with
  | zero => intro v; simp [bitsOfNum, byteOfBits, Nat.mod_one]
  | succ n ih =>
    intro v
    unfold bitsOfNum byteOfBits
    rw [ih (v >>> 1), Nat.and_one_is_mod, Nat.shiftRight_eq_div_pow]
    have h1 : v / 2 ^ 1 = v / 2 := by norm_num
    rw [h1]
    have h2 : 2 ^ (n + 1) = 2 * 2 ^ n := by rw [Nat.pow_succ]; ring
    rw [h2, Nat.mod_mul]

theorem bitsOfNum_bitsVal (data : List Nat) :
    ∀ (n pos : Nat), bitsOfNum (bitsVal data pos n) n = bitSeq data pos n := by
  intro n
  induction n with
  | zero => intro pos; simp [bitsOfNum, bitSeq]
  | succ n ih =>
    intro pos
    rw [bitSeq_succ]
    unfold bitsVal bitsOfNum
    have hb := fileBit_le_one data pos
    have h1 : (fileBit data pos + 2 * bitsVal data (pos + 1) n) &&& 1 = fileBit data pos := by
      rw [Nat.and_one_is_mod]; omega
    have h2 : (fileBit data pos + 2 * bitsVal data (pos + 1) n) >>> 1 =
        bitsVal data (pos + 1) n := by
      rw [Nat.shiftRight_eq_div_pow]
      have : (2 : Nat) ^ 1 = 2 := by norm_num
      rw [this]; omega
    rw [h1, h2, ih (pos + 1)]

theorem packBits_small (cs : List Nat) (hne : cs ≠ []) (hle : cs.length ≤ 8) :
    packBits cs = [byteOfBits cs] := by
  match cs, hne with
  | c :: cs', _ =>
    rw [packBits, List.take_of_length_le hle, List.drop_eq_nil_of_le hle, packBits]

theorem packBits_append_aligned :
    ∀ (bs cs : List Nat), bs.length % 8 = 0 →
      packBits (bs ++ cs) = packBits bs ++ packBits cs
  | [], cs, _ => by simp [packBits]
  | b :: bs, cs, h => by
    have h8 : 8 ≤ (b :: bs).length := by
      rw [List.length_cons] at h ⊢
      omega
    have htake : ((b :: bs) ++ cs).take 8 = (b :: bs).take 8 :=
      List.take_append_of_le_length h8
    have hdrop : ((b :: bs) ++ cs).drop 8 = (b :: bs).drop 8 ++ cs :=
      List.drop_append_of_le_length h8
    have hlen : ((b :: bs).drop 8).length % 8 = 0 := by
      rw [List.length_drop]
      omega
    have hrec := packBits_append_aligned ((b :: bs).drop 8) cs hlen
    rw [List.cons_append, packBits, packBits]
    rw [← List.cons_append b bs cs, htake, hdrop, hrec, List.cons_append]
termination_by bs _ _ => bs.length
decreasing_by simp; omega

theorem packBits_split (bs : List Nat) :
    packBits bs =
      packBits (bs.take (8 * (bs.length / 8))) ++ packBits (bs.drop (8 * (bs.length / 8))) := by
  conv_lhs => rw [← List.take_append_drop (8 * (bs.length / 8)) bs]
  apply packBits_append_aligned
  rw [List.length_take]
  omega

theorem packBits_length : ∀ (bs : List Nat), (packBits bs).length = (bs.length + 7) / 8
  | [] => by simp [packBits]
  | b :: bs => by
    rw [packBits, List.length_cons, packBits_length ((b :: bs).drop 8), List.length_drop,
      List.length_cons]
    omega
termination_by bs => bs.length
decreasing_by simp; omega

theorem byteOfBits_bit :
    ∀ (cs : List Nat), (∀ b ∈ cs, b ≤ 1) →
      ∀ k < cs.length, (byteOfBits cs >>> k) &&& 1 = cs.getD k 0 := by
  intro cs
  induction cs with
  | nil => intro _ k hk; simp at hk
  | cons c cs ih =>
    intro h k hk
    have hc : c ≤ 1 := h c (List.mem_cons_self _ _)
    match k with
    | 0 =>
      rw [Nat.shiftRight_zero, Nat.and_one_is_mod]
      unfold byteOfBits
      rw [List.getD_cons_zero]
      omega
    | k + 1 =>
      have hrec := ih (fun x hx => h x (List.mem_cons_of_mem c hx)) k
        (by rw [List.length_cons] at hk; omega)
      rw [List.getD_cons_succ]
      unfold byteOfBits
      rw [← hrec]
      congr 1
      rw [Nat.shiftRight_eq_div_pow, Nat.shiftRight_eq_div_pow, Nat.pow_succ]
      rw [Nat.mul_comm (2 ^ k) 2, ← Nat.div_div_eq_div_mul]
      congr 1
      omega

theorem fileBit_packBits :
    ∀ (bs : List Nat), (∀ b ∈ bs, b ≤ 1) →
      ∀ k < bs.length, fileBit (packBits bs) k = bs.getD k 0
  | [], _, k, hk => by simp at hk
  | b :: bs, h, k, hk => by
    rw [packBits]
    by_cases hk8 : k < 8
    · have hkd : k / 8 = 0 := by omega
      have hkm : k % 8 = k := by omega
      unfold fileBit
      rw [hkd, hkm, List.getD_cons_zero]
      have htk : k < ((b :: bs).take 8).length := by
        rw [List.length_take]
        omega
      have := byteOfBits_bit ((b :: bs).take 8)
        (fun x hx => h x (List.mem_of_mem_take hx)) k htk
      rw [this]
      rw [List.getD_eq_getElem?_getD, List.getD_eq_getElem?_getD, List.getElem?_take_of_lt hk8]
    · have hkd : k / 8 = (k - 8) / 8 + 1 := by omega
      have hrec := fileBit_packBits ((b :: bs).drop 8)
        (fun x hx => h x (List.mem_of_mem_drop hx))
        (k - 8) (by rw [List.length_drop]; omega)
      unfold fileBit at hrec ⊢
      rw [hkd, List.getD_cons_succ]
      have hm : k % 8 = (k - 8) % 8 := by omega
      rw [hm, hrec]
      rw [List.getD_eq_getElem?_getD, List.getD_eq_getElem?_getD, List.getElem?_drop]
      congr 2
      omega
termination_by bs => bs.length
decreasing_by simp; omega

/-- State of the bit writer after writing a bit list through `write_bit`,
starting from a freshly opened writer: the completed bytes are flushed in
packed form, the trailing partial byte sits in the accumulator. -/
theorem write_bit_fold_spec (bs : List Nat) : (∀ b ∈ bs, b ≤ 1) →
    bs.foldl FileBitWriter.write_bit FileBitWriter.openFile =
      { out := packBits (bs.take (8 * (bs.length / 8)))
        bit_position := bs.length
        byte := if bs.length % 8 = 0 then none
                else some (byteOfBits (bs.drop (8 * (bs.length / 8)))) } := by
  induction bs using List.reverseRecOn with
  | nil => intro _; simp [FileBitWriter.openFile, packBits]
  | append_singleton l a ih =>
    intro h
    have hl : ∀ b ∈ l, b ≤ 1 := fun b hb => h b (List.mem_append.2 (Or.inl hb))
    have ha : a ≤ 1 := h a (List.mem_append.2 (Or.inr (List.mem_cons_self _ _)))
    have hlen : (l ++ [a]).length = l.length + 1 := by simp
    rw [List.foldl_append, List.foldl_cons, List.foldl_nil, ih hl]
    by_cases hL : l.length % 8 = 0
    · -- accumulator was empty; the new bit starts a fresh byte, no flush
      have hq : (l.length + 1) / 8 = l.length / 8 := by omega
      have hq8 : 8 * (l.length / 8) = l.length := by omega
      have htake : (l ++ [a]).take (8 * ((l.length + 1) / 8)) = l := by
        rw [hq, hq8, List.take_append_of_le_length (Nat.le_refl _),
          List.take_of_length_le (Nat.le_refl _)]
      have hdrop : (l ++ [a]).drop (8 * ((l.length + 1) / 8)) = [a] := by
        rw [hq, hq8, List.drop_append_of_le_length (Nat.le_refl _),
          List.drop_eq_nil_of_le (Nat.le_refl _), List.nil_append]
      simp only [FileBitWriter.write_bit, hL, ite_true, FileBitWriter.flush]
      rw [if_neg (by omega : ¬ (l.length + 1 ≠ 0 ∧ (l.length + 1) % 8 = 0))]
      simp only [FileBitWriter.mk.injEq]
      refine ⟨?_, by omega, ?_⟩
      · rw [hlen, htake, hq8]
        rw [List.take_of_length_le (Nat.le_refl _)]
      · rw [hlen, if_neg (by omega : ¬ (l.length + 1) % 8 = 0), hdrop]
        simp [byteOfBits]
    · -- accumulator holds a partial byte of length `l.length % 8`
      have hp : byteOfBits (l.drop (8 * (l.length / 8))) < 2 ^ (l.length % 8) := by
        have hlen8 : (l.drop (8 * (l.length / 8))).length = l.length % 8 := by
          rw [List.length_drop]
          omega
        have := byteOfBits_lt (l.drop (8 * (l.length / 8)))
          (fun x hx => hl x (List.mem_of_mem_drop hx))
        rw [hlen8] at this
        exact this
      have hdl : (l.drop (8 * (l.length / 8))).length = l.length % 8 := by
        rw [List.length_drop]
        omega
      have hacc : byteOfBits (l.drop (8 * (l.length / 8))) ||| (a <<< (l.length % 8)) =
          byteOfBits (l.drop (8 * (l.length / 8)) ++ [a]) := by
        rw [lor_shiftLeft_eq_add a (l.length % 8) hp, byteOfBits_append_singleton, hdl]
      simp only [FileBitWriter.write_bit, hL, ite_false, FileBitWriter.flush]
      by_cases h7 : l.length % 8 = 7
      · -- the byte is completed: flush
        rw [if_pos (by omega : l.length + 1 ≠ 0 ∧ (l.length + 1) % 8 = 0)]
        simp only [FileBitWriter.flush, FileBitWriter.mk.injEq]
        have hq : (l.length + 1) / 8 = l.length / 8 + 1 := by omega
        have hq8 : 8 * (l.length / 8 + 1) = l.length + 1 := by omega
        have htake : (l ++ [a]).take (8 * ((l.length + 1) / 8)) = l ++ [a] := by
          rw [hq, hq8]
          apply List.take_of_length_le
          rw [hlen]
        refine ⟨?_, by omega, ?_⟩
        · rw [hlen, htake]
          have hsplit : l ++ [a] = l.take (8 * (l.length / 8)) ++
              (l.drop (8 * (l.length / 8)) ++ [a]) := by
            rw [← List.append_assoc, List.take_append_drop]
          rw [hsplit, packBits_append_aligned _ _ (by rw [List.length_take]; omega)]
          congr 1
          rw [packBits_small _ (by simp) (by rw [List.length_append, List.length_drop]; simp; omega)]
          rw [hacc]
        · rw [hlen, if_pos (by omega : (l.length + 1) % 8 = 0)]
      · -- byte still partial: no flush
        rw [if_neg (by omega : ¬ (l.length + 1 ≠ 0 ∧ (l.length + 1) % 8 = 0))]
        simp only [FileBitWriter.mk.injEq]
        have hq : (l.length + 1) / 8 = l.length / 8 := by omega
        have hle : 8 * (l.length / 8) ≤ l.length := by omega
        refine ⟨?_, by omega, ?_⟩
        · rw [hlen, hq, List.take_append_of_le_length hle]
        · rw [hlen, if_neg (by omega : ¬ (l.length + 1) % 8 = 0), hq,
            List.drop_append_of_le_length hle, hacc]

/-- Finalising the writer (the `Drop` impl calls `flush`) after writing a bit
list yields exactly the packed bytes. -/
theorem flush_fold_out (bs : List Nat) (h : ∀ b ∈ bs, b ≤ 1) :
    ((bs.foldl FileBitWriter.write_bit FileBitWriter.openFile).flush).out = packBits bs := by
  rw [write_bit_fold_spec bs h]
  by_cases h8 : bs.length % 8 = 0
  · simp only [FileBitWriter.flush, h8, ite_true]
    rw [show 8 * (bs.length / 8) = bs.length from by omega,
      List.take_of_length_le (Nat.le_refl _)]
  · simp only [FileBitWriter.flush, h8, ite_false]
    rw [packBits_split bs]
    congr 1
    rw [packBits_small _ (by
        intro hnil
        have := congrArg List.length hnil
        rw [List.length_drop] at this
        simp at this
        omega)
      (by rw [List.length_drop]; omega)]

/-- C6: writing `k > 0` bits through the bit writer and then finalising
(the teardown flush) produces exactly `ceil(k/8)` output bytes, and when `k`
is not a multiple of 8 the unused high bits of the final byte are zero. -/
theorem claim_C6_flush_law (bs : List Nat) (hne : bs ≠ []) (hb : ∀ b ∈ bs, b ≤ 1) :
    (((bs.foldl FileBitWriter.write_bit FileBitWriter.openFile).flush).out.length
        = (bs.length + 7) / 8) ∧
    (bs.length % 8 ≠ 0 →
      ∃ pre fin, ((bs.foldl FileBitWriter.write_bit FileBitWriter.openFile).flush).out
          = pre ++ [fin] ∧ fin < 2 ^ (bs.length % 8)) := by
  constructor
  · rw [flush_fold_out bs hb, packBits_length]
  · intro h8
    have hdne : bs.drop (8 * (bs.length / 8)) ≠ [] := by
      intro hnil
      have := congrArg List.length hnil
      rw [List.length_drop] at this
      simp at this
      omega
    have hdlen : (bs.drop (8 * (bs.length / 8))).length = bs.length % 8 := by
      rw [List.length_drop]; omega
    refine ⟨packBits (bs.take (8 * (bs.length / 8))),
      byteOfBits (bs.drop (8 * (bs.length / 8))), ?_, ?_⟩
    · rw [flush_fold_out bs hb, packBits_split bs,
        packBits_small _ hdne (by rw [hdlen]; omega)]
    · have := byteOfBits_lt (bs.drop (8 * (bs.length / 8)))
        (fun x hx => hb x (List.mem_of_mem_drop hx))
      rw [hdlen] at this
      exact this

theorem claim_C6_flush_law_witness :
    ((([1, 1, 1] : List Nat).foldl FileBitWriter.write_bit FileBitWriter.openFile).flush).out.length
      = (([1, 1, 1] : List Nat).length + 7) / 8 :=
  (claim_C6_flush_law [1, 1, 1] (by decide) (by decide)).1

namespace FileBitReader

theorem read_bit_eq (r : FileBitReader) (h : r.bit_position / 8 < r.data.length) :
    r.read_bit = some (fileBit r.data r.bit_position,
      { r with bit_position := r.bit_position + 1 }) := by
  unfold read_bit fileBit
  rw [if_pos h]

theorem readBitsAux_spec :
    ∀ (n : Nat) (r : FileBitReader) (i out : Nat),
      out < 2 ^ i →
      (∀ k < n, (r.bit_position + k) / 8 < r.data.length) →
      r.readBitsAux n i out =
        some (out + bitsVal r.data r.bit_position n * 2 ^ i,
          { r with bit_position := r.bit_position + n }) := by
  intro n
  induction n with
  | zero =>
    intro r i out _ _
    show some (out, r) = _
    simp [bitsVal]
  | succ n ih =>
    intro r i out hout hv
    have h0 : r.bit_position / 8 < r.data.length := by
      have := hv 0 (by omega)
      simpa using this
    have hb := fileBit_le_one r.data r.bit_position
    have hstep : r.readBitsAux (n + 1) i out =
        FileBitReader.readBitsAux { r with bit_position := r.bit_position + 1 } n (i + 1)
          (out ||| (fileBit r.data r.bit_position <<< i)) := by
      show (match r.read_bit with
        | none => none
        | some (b, r') => r'.readBitsAux n (i + 1) (out ||| (b <<< i))) = _
      rw [read_bit_eq r h0]
    rw [hstep]
    have hout' : out ||| (fileBit r.data r.bit_position <<< i) < 2 ^ (i + 1) := by
      rw [lor_shiftLeft_eq_add _ i hout, Nat.pow_succ]
      have h2 : 2 ^ i > 0 := Nat.pos_pow_of_pos i (by norm_num)
      nlinarith [hout, hb]
    have hv' : ∀ k < n,
        (({ r with bit_position := r.bit_position + 1 } : FileBitReader).bit_position + k) / 8 <
          ({ r with bit_position := r.bit_position + 1 } : FileBitReader).data.length := by
      intro k hk
      have := hv (k + 1) (by omega)
      simp only
      have harg : r.bit_position + 1 + k = r.bit_position + (k + 1) := by omega
      rw [harg]
      exact this
    rw [ih _ (i + 1) _ hout' hv']
    simp only [Option.some.injEq, Prod.mk.injEq]
    constructor
    · show (out ||| (fileBit r.data r.bit_position <<< i)) +
          bitsVal r.data (r.bit_position + 1) n * 2 ^ (i + 1) =
        out + bitsVal r.data r.bit_position (n + 1) * 2 ^ i
      rw [lor_shiftLeft_eq_add _ i hout]
      show _ = out + (fileBit r.data r.bit_position + 2 * bitsVal r.data (r.bit_position + 1) n) * 2 ^ i
      rw [Nat.pow_succ]
      ring
    · show ({ r with bit_position := r.bit_position + 1 + n } : FileBitReader) =
        { r with bit_position := r.bit_position + (n + 1) }
      simp only [FileBitReader.mk.injEq, true_and]
      omega

/-- Successful behaviour of `read_bits`: with a valid length and enough data
it returns the value of the next `len` bits, LSB first, and advances. -/
theorem read_bits_spec (r : FileBitReader) (len : Nat) (h1 : 0 < len) (h2 : len ≤ 8)
    (hv : ∀ k < len, (r.bit_position + k) / 8 < r.data.length) :
    r.read_bits len = some (bitsVal r.data r.bit_position len,
      { r with bit_position := r.bit_position + len }) := by
  unfold read_bits
  rw [if_pos ⟨h1, h2⟩, readBitsAux_spec len r 0 0 (by norm_num) hv]
  simp

end FileBitReader

/-- Bit `k` of `bitsVal data pos n` is bit `pos + k` of the file. -/
theorem bitsVal_bit (data : List Nat) :
    ∀ (n pos k : Nat), k < n →
      (bitsVal data pos n >>> k) &&& 1 = fileBit data (pos + k) := by
  intro n
  induction n with
  | zero => intro pos k hk; omega
  | succ n ih =>
    intro pos k hk
    have hb := fileBit_le_one data pos
    match k with
    | 0 =>
      show ((fileBit data pos + 2 * bitsVal data (pos + 1) n) >>> 0) &&& 1 = fileBit data pos
      rw [Nat.shiftRight_zero, Nat.and_one_is_mod]
      omega
    | k + 1 =>
      show ((fileBit data pos + 2 * bitsVal data (pos + 1) n) >>> (k + 1)) &&& 1 = _
      have hdiv : (fileBit data pos + 2 * bitsVal data (pos + 1) n) >>> (k + 1) =
          bitsVal data (pos + 1) n >>> k := by
        rw [Nat.shiftRight_eq_div_pow, Nat.shiftRight_eq_div_pow, Nat.pow_succ,
          Nat.mul_comm (2 ^ k) 2, ← Nat.div_div_eq_div_mul]
        congr 1
        omega
      rw [hdiv, ih (pos + 1) k (by omega)]
      congr 1
      omega

/-- C7: for `1 ≤ len ≤ 8` and enough remaining data, `read_bits(len)` returns
the next `len` bits of the file LSB-first (bit 0 of the result is the first
bit read), the higher result bits are zero, and the bit position advances by
`len`; for `len = 0` or `len > 8` the `assert!` fires and no value is
returned. -/
theorem claim_C7_read_bits (r : FileBitReader) (len : Nat) :
    (1 ≤ len → len ≤ 8 →
      (∀ k < len, (r.bit_position + k) / 8 < r.data.length) →
      ∃ v r', r.read_bits len = some (v, r') ∧
        v < 2 ^ len ∧
        (∀ k < len, (v >>> k) &&& 1 = fileBit r.data (r.bit_position + k)) ∧
        r'.bit_position = r.bit_position + len ∧ r'.data = r.data ∧ r'.size = r.size) ∧
    ((len = 0 ∨ 8 < len) → r.read_bits len = none) := by
  constructor
  · intro h1 h2 hv
    refine ⟨bitsVal r.data r.bit_position len, { r with bit_position := r.bit_position + len },
      FileBitReader.read_bits_spec r len h1 h2 hv, bitsVal_lt r.data len r.bit_position,
      fun k hk => bitsVal_bit r.data len r.bit_position k hk, rfl, rfl, rfl⟩
  · intro h
    unfold FileBitReader.read_bits
    rw [if_neg (by omega)]

theorem claim_C7_read_bits_witness :
    ∃ v r', (FileBitReader.openFile [178]).read_bits 5 = some (v, r') ∧
      v < 2 ^ 5 ∧
      (∀ k < 5, (v >>> k) &&& 1 =
        fileBit (FileBitReader.openFile [178]).data
          ((FileBitReader.openFile [178]).bit_position + k)) ∧
      r'.bit_position = (FileBitReader.openFile [178]).bit_position + 5 ∧
      r'.data = (FileBitReader.openFile [178]).data ∧
      r'.size = (FileBitReader.openFile [178]).size :=
  (claim_C7_read_bits (FileBitReader.openFile [178]) 5).1 (by norm_num) (by norm_num)
    (by decide)

theorem list_eq_of_getD (l₁ l₂ : List Nat) (hlen : l₁.length = l₂.length)
    (h : ∀ k < l₁.length, l₁.getD k 0 = l₂.getD k 0) : l₁ = l₂ := by
  apply List.ext_getElem hlen
  intro i h1 h2
  have := h i h1
  rw [List.getD_eq_getElem?_getD, List.getD_eq_getElem?_getD,
    List.getElem?_eq_getElem h1, List.getElem?_eq_getElem h2] at this
  simpa using this

theorem bitSeq_getD (data : List Nat) (pos n k : Nat) (hk : k < n) :
    (bitSeq data pos n).getD k 0 = fileBit data (pos + k) := by
  unfold bitSeq
  rw [List.getD_eq_getElem?_getD, List.getElem?_map, List.getElem?_range hk]
  rfl

/-- Reading the bit stream of a packed bit list reproduces the bits. -/
theorem bitSeq_packBits (bs : List Nat) (h : ∀ b ∈ bs, b ≤ 1) :
    bitSeq (packBits bs) 0 bs.length = bs := by
  apply list_eq_of_getD
  · rw [bitSeq_length]
  · intro k hk
    rw [bitSeq_length] at hk
    rw [bitSeq_getD _ _ _ _ hk, Nat.zero_add]
    exact fileBit_packBits bs h k hk

/-- The loop of `write_bits` is a fold of `write_bit` over the low bits. -/
theorem writeBitsAux_eq_foldl :
    ∀ (n : Nat) (w : FileBitWriter) (v : Nat),
      w.writeBitsAux v n = (bitsOfNum v n).foldl FileBitWriter.write_bit w := by
  intro n
  induction n with
  | zero => intro w v; rfl
  | succ n ih =>
    intro w v
    show (w.write_bit (v &&& 1)).writeBitsAux (v >>> 1) n = _
    rw [ih]
    rfl

/-- Writing a list of (value, group-size) pairs through `write_bits`,
one call per pair. -/
def writeGroups : FileBitWriter → List (Nat × Nat) → Option FileBitWriter
  | w, [] => some w
  | w, g :: gs =>
    match w.write_bits g.1 g.2 with
    | none => none
    | some w' => writeGroups w' gs

/-- Reading a list of group sizes back through `read_bits`, one call per
size, collecting the values. -/
def readGroups : FileBitReader → List Nat → Option (List Nat × FileBitReader)
  | r, [] => some ([], r)
  | r, len :: lens =>
    match r.read_bits len with
    | none => none
    | some (v, r') =>
      match readGroups r' lens with
      | none => none
      | some (vs, r'') => some (v :: vs, r'')

theorem writeGroups_spec :
    ∀ (gs : List (Nat × Nat)) (w : FileBitWriter),
      (∀ g ∈ gs, 0 < g.2 ∧ g.2 ≤ 8) →
      writeGroups w gs =
        some (((gs.map (fun g => bitsOfNum g.1 g.2)).flatten).foldl FileBitWriter.write_bit w) := by
  intro gs
  induction gs with
  | nil => intro w _; rfl
  | cons g gs ih =>
    intro w h
    have hg := h g (List.mem_cons_self _ _)
    show (match w.write_bits g.1 g.2 with
      | none => none
      | some w' => writeGroups w' gs) = _
    unfold FileBitWriter.write_bits
    rw [if_pos ⟨hg.1, hg.2⟩]
    show writeGroups (w.writeBitsAux g.1 g.2) gs = _
    rw [ih _ (fun x hx => h x (List.mem_cons_of_mem _ hx)), writeBitsAux_eq_foldl]
    rw [List.map_cons, List.flatten_cons, List.foldl_append]

theorem readGroups_spec :
    ∀ (gs : List (Nat × Nat)) (r : FileBitReader),
      (∀ g ∈ gs, 0 < g.2 ∧ g.2 ≤ 8 ∧ g.1 < 2 ^ g.2) →
      bitSeq r.data r.bit_position ((gs.map Prod.snd).sum) =
        (gs.map (fun g => bitsOfNum g.1 g.2)).flatten →
      (∀ k < (gs.map Prod.snd).sum, (r.bit_position + k) / 8 < r.data.length) →
      readGroups r (gs.map Prod.snd) =
        some (gs.map Prod.fst,
          { r with bit_position := r.bit_position + (gs.map Prod.snd).sum }) := by
  intro gs
  induction gs with
  | nil =>
    intro r _ _ _
    show some ([], r) = _
    simp
  | cons g gs ih =>
    intro r h hseq hv
    obtain ⟨h1, h2, h3⟩ := h g (List.mem_cons_self _ _)
    have hsum : ((g :: gs).map Prod.snd).sum = g.2 + (gs.map Prod.snd).sum := by
      rw [List.map_cons, List.sum_cons]
    -- split the bit stream equation at the first group boundary
    rw [hsum, bitSeq_append, List.map_cons, List.flatten_cons] at hseq
    have hlen1 : (bitSeq r.data r.bit_position g.2).length = (bitsOfNum g.1 g.2).length := by
      rw [bitSeq_length, bitsOfNum_length]
    obtain ⟨hfirst, hrest⟩ := List.append_inj hseq hlen1
    -- the first read returns exactly the first value
    have hv1 : ∀ k < g.2, (r.bit_position + k) / 8 < r.data.length := by
      intro k hk
      exact hv k (by omega)
    have hval : bitsVal r.data r.bit_position g.2 = g.1 := by
      rw [bitsVal_eq_byteOfBits, hfirst, byteOfBits_bitsOfNum, Nat.mod_eq_of_lt h3]
    have hread := FileBitReader.read_bits_spec r g.2 h1 h2 hv1
    show (match r.read_bits g.2 with
      | none => none
      | some (v, r') =>
        match readGroups r' (gs.map Prod.snd) with
        | none => none
        | some (vs, r'') => some (v :: vs, r'')) = _
    rw [hread, hval]
    show (match readGroups { r with bit_position := r.bit_position + g.2 } (gs.map Prod.snd) with
        | none => none
        | some (vs, r'') => some (g.1 :: vs, r'')) = _
    have hrec := ih { r with bit_position := r.bit_position + g.2 }
      (fun x hx => h x (List.mem_cons_of_mem _ hx))
      (by
        show bitSeq r.data (r.bit_position + g.2) ((gs.map Prod.snd).sum) = _
        exact hrest)
      (by
        intro k hk
        show (r.bit_position + g.2 + k) / 8 < r.data.length
        have := hv (g.2 + k) (by omega)
        have harg : r.bit_position + (g.2 + k) = r.bit_position + g.2 + k := by omega
        rw [harg] at this
        exact this)
    rw [hrec]
    show some (g.1 :: gs.map Prod.fst,
        { r with bit_position := r.bit_position + g.2 + (gs.map Prod.snd).sum }) = _
    simp only [Option.some.injEq, Prod.mk.injEq, List.map_cons, List.sum_cons]
    refine ⟨trivial, ?_⟩
    simp only [FileBitReader.mk.injEq, true_and]
    omega

/-- C8: writing any sequence of (value, size) groups (sizes 1–8, values in
range, total size a multiple of 8) through the bit writer and reading the
same sizes back through the bit reader returns the original values. -/
theorem claim_C8_duality (gs : List (Nat × Nat))
    (hg : ∀ g ∈ gs, 0 < g.2 ∧ g.2 ≤ 8 ∧ g.1 < 2 ^ g.2)
    (halign : (gs.map Prod.snd).sum % 8 = 0) :
    ∃ wfin, writeGroups FileBitWriter.openFile gs = some wfin ∧
      ∃ rend, readGroups (FileBitReader.openFile wfin.flush.out) (gs.map Prod.snd) =
        some (gs.map Prod.fst, rend) := by
  have hbits : ∀ b ∈ (gs.map (fun g => bitsOfNum g.1 g.2)).flatten, b ≤ 1 := by
    intro b hb
    obtain ⟨l, hl, hbl⟩ := List.mem_flatten.1 hb
    obtain ⟨g, _, rfl⟩ := List.mem_map.1 hl
    exact bitsOfNum_mem_le_one _ _ b hbl
  have hlen : ((gs.map (fun g => bitsOfNum g.1 g.2)).flatten).length = (gs.map Prod.snd).sum := by
    rw [List.length_flatten, List.map_map]
    congr 1
    apply List.map_congr_left
    intro g _
    exact bitsOfNum_length _ _
  have hw := writeGroups_spec gs FileBitWriter.openFile
    (fun g hgm => ⟨(hg g hgm).1, (hg g hgm).2.1⟩)
  refine ⟨((gs.map (fun g => bitsOfNum g.1 g.2)).flatten).foldl
    FileBitWriter.write_bit FileBitWriter.openFile, hw, ?_⟩
  have hout : (((gs.map (fun g => bitsOfNum g.1 g.2)).flatten).foldl
      FileBitWriter.write_bit FileBitWriter.openFile).flush.out =
      packBits ((gs.map (fun g => bitsOfNum g.1 g.2)).flatten) :=
    flush_fold_out _ hbits
  rw [hout]
  have hseq : bitSeq (packBits ((gs.map (fun g => bitsOfNum g.1 g.2)).flatten)) 0
      ((gs.map Prod.snd).sum) = (gs.map (fun g => bitsOfNum g.1 g.2)).flatten := by
    rw [← hlen]
    exact bitSeq_packBits _ hbits
  have hplen : (packBits ((gs.map (fun g => bitsOfNum g.1 g.2)).flatten)).length =
      (gs.map Prod.snd).sum / 8 := by
    rw [packBits_length, hlen]
    omega
  have hseq' : bitSeq (FileBitReader.openFile
      (packBits ((gs.map (fun g => bitsOfNum g.1 g.2)).flatten))).data
      (FileBitReader.openFile
        (packBits ((gs.map (fun g => bitsOfNum g.1 g.2)).flatten))).bit_position
      ((gs.map Prod.snd).sum) = (gs.map (fun g => bitsOfNum g.1 g.2)).flatten := hseq
  have hval : ∀ k < (gs.map Prod.snd).sum,
      ((FileBitReader.openFile
          (packBits ((gs.map (fun g => bitsOfNum g.1 g.2)).flatten))).bit_position + k) / 8 <
        (FileBitReader.openFile
          (packBits ((gs.map (fun g => bitsOfNum g.1 g.2)).flatten))).data.length := by
    intro k hk
    show (0 + k) / 8 < (packBits ((gs.map (fun g => bitsOfNum g.1 g.2)).flatten)).length
    rw [hplen]
    omega
  exact ⟨_, readGroups_spec gs (FileBitReader.openFile
      (packBits ((gs.map (fun g => bitsOfNum g.1 g.2)).flatten))) hg hseq' hval⟩

theorem claim_C8_duality_witness :
    ∃ wfin, writeGroups FileBitWriter.openFile [(5, 4), (9, 4)] = some wfin ∧
      ∃ rend, readGroups (FileBitReader.openFile wfin.flush.out)
          ([(5, 4), (9, 4)].map Prod.snd) =
        some ([(5, 4), (9, 4)].map Prod.fst, rend) :=
  claim_C8_duality [(5, 4), (9, 4)] (by decide) (by decide)

/-! ### The framing protocol: header and stream -/

namespace ImageDataStream

/-- `ImageDataStream::read_header`: OR together the 9 header words
(`HEADER_WORDS = 63 / 7`), word `i` shifted to bit `i * 7`. -/
def read_header (s : ImageDataStream) : Nat :=
  (List.range 9).foldl (fun h i => h ||| (s.read_word i <<< (i * 7))) 0

/-- `ImageDataStream::write_header`: write word `i` as
`(header >> (i * 7)) as u8 & 0x7F` for `i = 0 .. 8`. -/
def write_header (s : ImageDataStream) (header : Nat) : ImageDataStream :=
  (List.range 9).foldl (fun t i => t.write_word i (((header >>> (i * 7)) % 256) &&& 127)) s

/-- The loop of `read_stream` over full words: `i` is the current word
address (a `u64`, cast `as u32` at each `read_word` call), `n` words
remain. -/
def readStreamLoop (s : ImageDataStream) : Nat → Nat → FileBitWriter → Option FileBitWriter
  | _, 0, output => some output
  | i, n + 1, output =>
    match output.write_bits (s.read_word (i % 2 ^ 32)) 7 with
    | none => none
    | some output' => readStreamLoop s (i + 1) n output'

/-- `ImageDataStream::read_stream`: recover `bytes` from the header, then
stream `bytes * 8` bits (`u64` arithmetic) in 7-bit words from address
`DATA_START = 9`, with a final partial group of `rem` bits. -/
def read_stream (s : ImageDataStream) (output : FileBitWriter) : Option FileBitWriter :=
  let bytes := s.read_header
  let bits := bytes * 8 % 2 ^ 64
  let count := bits / 7
  let rem := bits % 7
  match readStreamLoop s 9 count output with
  | none => none
  | some output' =>
    if rem ≠ 0 then
      output'.write_bits (s.read_word ((9 + count) % 2 ^ 32)) rem
    else
      some output'

/-- The loop of `write_stream` over full words. -/
def writeStreamLoop :
    ImageDataStream → FileBitReader → Nat → Nat → Option (ImageDataStream × FileBitReader)
  | s, input, _, 0 => some (s, input)
  | s, input, i, n + 1 =>
    match input.read_bits 7 with
    | none => none
    | some (v, input') => writeStreamLoop (s.write_word (i % 2 ^ 32) v) input' (i + 1) n

/-- `ImageDataStream::write_stream`: `bytes = input.size`, write the header,
then stream `bytes * 8` bits in 7-bit words from address 9, with a final
partial group of `rem` bits. -/
def write_stream (s : ImageDataStream) (input : FileBitReader) :
    Option (ImageDataStream × FileBitReader) :=
  let bytes := input.size
  let bits := bytes * 8 % 2 ^ 64
  let count := bits / 7
  let rem := bits % 7
  let s' := s.write_header bytes
  match writeStreamLoop s' input 9 count with
  | none => none
  | some (s'', input') =>
    if rem ≠ 0 then
      match input'.read_bits rem with
      | none => none
      | some (v, input'') => some (s''.write_word ((9 + count) % 2 ^ 32) v, input'')
    else
      some (s'', input')

/-- `ImageDataStream::into_inner`. -/
def into_inner (s : ImageDataStream) : Image := s.image

/-- The caller-side semantics of `test.read_stream(&mut output)`: the method
borrows the stream immutably (`&self`), so after the call the caller still
holds the same stream; only the writer changes. -/
def read_stream_call (s : ImageDataStream) (output : FileBitWriter) :
    Option (ImageDataStream × FileBitWriter) :=
  match s.read_stream output with
  | none => none
  | some output' => some (s, output')

theorem pixelIndex_congr (t s : ImageDataStream) (a : Nat)
    (hw : t.image.width = s.image.width) (hh : t.image.height = s.image.height) :
    t.pixelIndex a = s.pixelIndex a := by
  unfold pixelIndex
  rw [hw, hh]

end ImageDataStream

namespace ImageDataStream

/-- Effect of the address-indexed write fold used by `write_header`: with
in-bounds, pairwise-distinct flat indices for the first `k` addresses, word
`i < k` reads back `f i &&& 127`, untouched addresses are unchanged, and the
image dimensions are preserved. -/
theorem range_fold_write_spec (f : Nat → Nat) (s : ImageDataStream) :
    ∀ (k : Nat),
      (∀ i < k, s.pixelIndex i < s.image.pixels.length) →
      (∀ i < k, ∀ j < k, i ≠ j → s.pixelIndex i ≠ s.pixelIndex j) →
      (((List.range k).foldl (fun t a => t.write_word a (f a)) s).image.width = s.image.width ∧
        ((List.range k).foldl (fun t a => t.write_word a (f a)) s).image.height = s.image.height ∧
        ((List.range k).foldl (fun t a => t.write_word a (f a)) s).image.pixels.length =
          s.image.pixels.length) ∧
      (∀ i < k, ((List.range k).foldl (fun t a => t.write_word a (f a)) s).read_word i =
        f i &&& 127) ∧
      (∀ a, (∀ i < k, s.pixelIndex a ≠ s.pixelIndex i) →
        ((List.range k).foldl (fun t a => t.write_word a (f a)) s).read_word a =
          s.read_word a) := by
  intro k
  induction k with
  | zero =>
    intro _ _
    exact ⟨⟨rfl, rfl, rfl⟩, fun i hi => absurd hi (by omega), fun a _ => rfl⟩
  | succ k ih =>
    intro hin hinj
    have hin' : ∀ i < k, s.pixelIndex i < s.image.pixels.length :=
      fun i hi => hin i (by omega)
    have hinj' : ∀ i < k, ∀ j < k, i ≠ j → s.pixelIndex i ≠ s.pixelIndex j :=
      fun i hi j hj => hinj i (by omega) j (by omega)
    obtain ⟨⟨hW, hH, hL⟩, hread, huntouched⟩ := ih hin' hinj'
    have hfold : (List.range (k + 1)).foldl (fun t a => t.write_word a (f a)) s =
        ((List.range k).foldl (fun t a => t.write_word a (f a)) s).write_word k (f k) := by
      rw [List.range_succ, List.foldl_append, List.foldl_cons, List.foldl_nil]
    set Fk := (List.range k).foldl (fun t a => t.write_word a (f a)) s with hFk
    have hidx : ∀ a, Fk.pixelIndex a = s.pixelIndex a :=
      fun a => pixelIndex_congr Fk s a hW hH
    rw [hfold]
    refine ⟨⟨?_, ?_, ?_⟩, ?_, ?_⟩
    · rw [write_word_width, hW]
    · rw [write_word_height, hH]
    · rw [write_word_length, hL]
    · intro i hi
      by_cases hik : i = k
      · subst hik
        rw [read_word_write_word_self Fk i (f i) (by rw [hidx, hL]; exact hin i (by omega))]
      · have hik' : i < k := by omega
        rw [read_word_write_word_ne Fk k (f k) i
          (by rw [hidx, hidx]; exact hinj i (by omega) k (by omega) hik)]
        exact hread i hik'
    · intro a ha
      rw [read_word_write_word_ne Fk k (f k) a (by rw [hidx, hidx]; exact ha k (by omega))]
      exact huntouched a (fun i hi => ha i (by omega))

/-- Words read back after `write_header`, plus preservation facts. -/
theorem write_header_spec (s : ImageDataStream) (n : Nat)
    (hin : ∀ i < 9, s.pixelIndex i < s.image.pixels.length)
    (hinj : ∀ i < 9, ∀ j < 9, i ≠ j → s.pixelIndex i ≠ s.pixelIndex j) :
    ((s.write_header n).image.width = s.image.width ∧
      (s.write_header n).image.height = s.image.height ∧
      (s.write_header n).image.pixels.length = s.image.pixels.length) ∧
    (∀ i < 9, (s.write_header n).read_word i = ((n >>> (i * 7)) % 256) &&& 127) ∧
    (∀ a, (∀ i < 9, s.pixelIndex a ≠ s.pixelIndex i) →
      (s.write_header n).read_word a = s.read_word a) := by
  have h := range_fold_write_spec (fun i => ((n >>> (i * 7)) % 256) &&& 127) s 9 hin hinj
  refine ⟨h.1, fun i hi => ?_, h.2.2⟩
  calc (s.write_header n).read_word i
      = (((n >>> (i * 7)) % 256) &&& 127) &&& 127 := h.2.1 i hi
    _ = ((n >>> (i * 7)) % 256) &&& 127 := by rw [Nat.and_assoc, Nat.and_self]

/-- Reconstruction of the header value from its 7-bit chunks. -/
theorem read_header_fold (t : ImageDataStream) (n : Nat)
    (hw : ∀ i < 9, t.read_word i = ((n >>> (i * 7)) % 256) &&& 127) :
    ∀ k, k ≤ 9 →
      (List.range k).foldl (fun h i => h ||| (t.read_word i <<< (i * 7))) 0 = n % 2 ^ (k * 7) := by
  intro k
  induction k with
  | zero => intro _; simp [Nat.mod_one]
  | succ k ih =>
    intro hk9
    rw [List.range_succ, List.foldl_append, List.foldl_cons, List.foldl_nil, ih (by omega)]
    rw [hw k (by omega)]
    have hv : ((n >>> (k * 7)) % 256) &&& 127 = n / 2 ^ (k * 7) % 128 := by
      rw [land_127, Nat.shiftRight_eq_div_pow]
      omega
    rw [hv, lor_shiftLeft_eq_add _ _ (Nat.mod_lt _ (Nat.pos_pow_of_pos _ (by norm_num)))]
    have hpow : 2 ^ ((k + 1) * 7) = 2 ^ (k * 7) * 128 := by
      rw [show (k + 1) * 7 = k * 7 + 7 from by ring, Nat.pow_add]
    rw [hpow, Nat.mod_mul]
    ring

/-- `read_header` recovers any value below `2^63` whose chunks sit in the
first nine words. -/
theorem read_header_spec (t : ImageDataStream) (n : Nat) (hn : n < 2 ^ 63)
    (hw : ∀ i < 9, t.read_word i = ((n >>> (i * 7)) % 256) &&& 127) :
    t.read_header = n := by
  unfold read_header
  rw [read_header_fold t n hw 9 (by omega)]
  rw [show (9 : Nat) * 7 = 63 from by norm_num]
  exact Nat.mod_eq_of_lt hn

end ImageDataStream

/-- C2 (amended): for any `0 ≤ n < 2^63`, writing `n` with `write_header`
and reading it back with `read_header` on the same image yields exactly `n`,
provided the nine header addresses `0..8` map to in-bounds, pairwise-distinct
pixels (e.g. any square carrier with at least 9 pixels).  Without that
proviso the claim fails: see the counterexample. -/
theorem claim_C2_header_roundtrip (img : Image) (n : Nat) (hn : n < 2 ^ 63)
    (hin : ∀ i < 9, (ImageDataStream.new img).pixelIndex i < img.pixels.length)
    (hinj : ∀ i < 9, ∀ j < 9, i ≠ j →
      (ImageDataStream.new img).pixelIndex i ≠ (ImageDataStream.new img).pixelIndex j) :
    ((ImageDataStream.new img).write_header n).read_header = n := by
  have hspec := ImageDataStream.write_header_spec (ImageDataStream.new img) n hin hinj
  exact ImageDataStream.read_header_spec _ n hn hspec.2.1

theorem claim_C2_header_roundtrip_witness :
    ((ImageDataStream.new ⟨3, 3, List.replicate 9 ⟨0, 0, 0⟩⟩).write_header 100).read_header =
      100 :=
  claim_C2_header_roundtrip ⟨3, 3, List.replicate 9 ⟨0, 0, 0⟩⟩ 100 (by norm_num)
    (by decide) (by decide)

/-- C2 counterexample: the claim as stated fails for some carriers.  On a
3×4 all-black image (capacity 84 bits ≥ 63), header addresses 0 and 3 both
map to flat pixel index 0 (`3 % 3 = 0`, `3 / 4 = 0`), so the later zero word
overwrites word 0: writing header 1 reads back 0, not 1. -/
theorem claim_C2_header_counterexample :
    ((ImageDataStream.new ⟨3, 4, List.replicate 12 ⟨0, 0, 0⟩⟩).write_header 1).read_header ≠ 1 := by
  decide

/-- C9: extraction is read-only on the carrier.  `read_stream` borrows the
stream immutably (`&self` in the source), so the caller's stream after the
call — modelled by `read_stream_call` — is the very stream passed in, and
every pixel of the image is unchanged. -/
theorem claim_C9_read_stream_readonly (s : ImageDataStream) (output : FileBitWriter) :
    ∀ res, s.read_stream_call output = some res →
      res.1 = s ∧ res.1.image.pixels = s.image.pixels := by
  intro res h
  unfold ImageDataStream.read_stream_call at h
  cases hr : s.read_stream output with
  | none =>
    rw [hr] at h
    exact absurd h (by simp)
  | some w =>
    rw [hr] at h
    simp only [Option.some.injEq] at h
    subst h
    exact ⟨rfl, rfl⟩

theorem claim_C9_read_stream_readonly_witness :
    ((ImageDataStream.new ⟨1, 1, [⟨0, 0, 0⟩]⟩, FileBitWriter.openFile) :
        ImageDataStream × FileBitWriter).1 = ImageDataStream.new ⟨1, 1, [⟨0, 0, 0⟩]⟩ :=
  (claim_C9_read_stream_readonly (ImageDataStream.new ⟨1, 1, [⟨0, 0, 0⟩]⟩)
    FileBitWriter.openFile (ImageDataStream.new ⟨1, 1, [⟨0, 0, 0⟩]⟩, FileBitWriter.openFile)
    (by decide)).1

namespace ImageDataStream

/-- On square images the flat pixel index of a word address is the address
itself: `(addr % w) + (addr / w) * w = addr`. -/
theorem pixelIndex_square (s : ImageDataStream) (h : s.image.width = s.image.height)
    (addr : Nat) : s.pixelIndex addr = addr := by
  unfold pixelIndex
  rw [h, Nat.mod_add_div' addr s.image.height]

/-- Behaviour of the body loop of `write_stream` on a square carrier with
enough room: it consumes `7 * n` bits and deposits them as consecutive
words. -/
theorem writeStreamLoop_spec :
    ∀ (n : Nat) (s : ImageDataStream) (input : FileBitReader) (i : Nat),
      s.image.width = s.image.height →
      i + n ≤ s.image.pixels.length →
      i + n ≤ 2 ^ 32 →
      (∀ k < 7 * n, (input.bit_position + k) / 8 < input.data.length) →
      ∃ s', writeStreamLoop s input i n =
          some (s', { input with bit_position := input.bit_position + 7 * n }) ∧
        s'.image.width = s.image.width ∧
        s'.image.height = s.image.height ∧
        s'.image.pixels.length = s.image.pixels.length ∧
        (∀ j, i ≤ j → j < i + n →
          s'.read_word j = bitsVal input.data (input.bit_position + 7 * (j - i)) 7) ∧
        (∀ j, j < i ∨ i + n ≤ j → s'.read_word j = s.read_word j) := by
  intro n
  induction n with
  | zero =>
    intro s input i _ _ _ _
    refine ⟨s, ?_, rfl, rfl, rfl, ?_, ?_⟩
    · show some (s, input) = _
      have h0 : input.bit_position + 7 * 0 = input.bit_position := by omega
      rw [h0]
    · intro j h1 h2
      exact absurd h2 (by omega)
    · intro j _
      rfl
  | succ n ih =>
    intro s input i hsq hlen h32 hv
    have hi32 : i % 2 ^ 32 = i := Nat.mod_eq_of_lt (by omega)
    have hv7 : ∀ k < 7, (input.bit_position + k) / 8 < input.data.length :=
      fun k hk => hv k (by omega)
    have hread := FileBitReader.read_bits_spec input 7 (by omega) (by omega) hv7
    have hstep : writeStreamLoop s input i (n + 1) =
        writeStreamLoop (s.write_word i (bitsVal input.data input.bit_position 7))
          { input with bit_position := input.bit_position + 7 } (i + 1) n := by
      show (match input.read_bits 7 with
        | none => none
        | some (v, input') => writeStreamLoop (s.write_word (i % 2 ^ 32) v) input' (i + 1) n) = _
      rw [hread, hi32]
    have hsq1 : (s.write_word i (bitsVal input.data input.bit_position 7)).image.width =
        (s.write_word i (bitsVal input.data input.bit_position 7)).image.height := by
      rw [write_word_width, write_word_height, hsq]
    obtain ⟨s', hloop, hW, hH, hL, hwords, huntouched⟩ :=
      ih (s.write_word i (bitsVal input.data input.bit_position 7))
        { input with bit_position := input.bit_position + 7 } (i + 1) hsq1
        (by rw [write_word_length]; omega) (by omega)
        (by
          intro k hk
          show (input.bit_position + 7 + k) / 8 < input.data.length
          have := hv (7 + k) (by omega)
          have harg : input.bit_position + (7 + k) = input.bit_position + 7 + k := by omega
          rw [harg] at this
          exact this)
    rw [hstep, hloop]
    refine ⟨s', ?_, ?_, ?_, ?_, ?_, ?_⟩
    · simp only [Option.some.injEq, Prod.mk.injEq, FileBitReader.mk.injEq, true_and]
      omega
    · rw [hW, write_word_width]
    · rw [hH, write_word_height]
    · rw [hL, write_word_length]
    · intro j hj1 hj2
      by_cases hji : j = i
      · subst hji
        have hju := huntouched j (by omega)
        have hvlt : bitsVal input.data input.bit_position 7 < 128 := by
          have hlt := bitsVal_lt input.data 7 input.bit_position
          norm_num at hlt
          exact hlt
        rw [hju, read_word_write_word_self s j _ (by rw [pixelIndex_square s hsq]; omega),
          land_127, Nat.mod_eq_of_lt hvlt]
        congr 1
        omega
      · have hjw := hwords j (by omega) (by omega)
        dsimp only at hjw
        rw [hjw]
        congr 1
        omega
    · intro j hj
      have hju := huntouched j (by omega)
      rw [hju, read_word_write_word_ne]
      rw [pixelIndex_square s hsq, pixelIndex_square s hsq]
      omega

end ImageDataStream

namespace ImageDataStream

/-- The body loop of `read_stream` is a fold of `write_bit` over the bits of
the words it reads (each `write_bits … 7` call passes the assertion). -/
theorem readStreamLoop_spec :
    ∀ (n : Nat) (s : ImageDataStream) (i : Nat) (output : FileBitWriter),
      readStreamLoop s i n output =
        some ((((List.range n).map
            (fun k => bitsOfNum (s.read_word ((i + k) % 2 ^ 32)) 7)).flatten).foldl
          FileBitWriter.write_bit output) := by
  intro n
  induction n with
  | zero =>
    intro s i output
    rfl
  | succ n ih =>
    intro s i output
    have hwb : output.write_bits (s.read_word (i % 2 ^ 32)) 7 =
        some ((bitsOfNum (s.read_word (i % 2 ^ 32)) 7).foldl FileBitWriter.write_bit output) := by
      unfold FileBitWriter.write_bits
      rw [if_pos (by omega : (0 : Nat) < 7 ∧ (7 : Nat) ≤ 8), writeBitsAux_eq_foldl]
    have h1 : readStreamLoop s i (n + 1) output =
        readStreamLoop s (i + 1) n
          ((bitsOfNum (s.read_word (i % 2 ^ 32)) 7).foldl FileBitWriter.write_bit output) := by
      show (match output.write_bits (s.read_word (i % 2 ^ 32)) 7 with
        | none => none
        | some output' => readStreamLoop s (i + 1) n output') = _
      rw [hwb]
    have h2 := ih s (i + 1)
      ((bitsOfNum (s.read_word (i % 2 ^ 32)) 7).foldl FileBitWriter.write_bit output)
    have h3 : (((List.range (n + 1)).map
          (fun k => bitsOfNum (s.read_word ((i + k) % 2 ^ 32)) 7)).flatten).foldl
        FileBitWriter.write_bit output =
        (((List.range n).map
          (fun k => bitsOfNum (s.read_word ((i + 1 + k) % 2 ^ 32)) 7)).flatten).foldl
        FileBitWriter.write_bit
        ((bitsOfNum (s.read_word (i % 2 ^ 32)) 7).foldl FileBitWriter.write_bit output) := by
      rw [List.range_succ_eq_map, List.map_cons, List.flatten_cons, List.foldl_append,
        List.map_map]
      simp only [Nat.add_zero]
      congr 2
      apply List.map_congr_left
      intro k _
      simp only [Function.comp_apply, Nat.succ_eq_add_one]
      congr 3
      omega
    exact h1.trans (h2.trans (congrArg some h3.symm))

end ImageDataStream

/-- `bitsOfNum` as a map over bit positions. -/
theorem bitsOfNum_eq_map : ∀ (n v : Nat),
    bitsOfNum v n = (List.range n).map (fun k => (v >>> k) &&& 1) := by
  intro n
  induction n with
  | zero => intro v; rfl
  | succ n ih =>
    intro v
    show (v &&& 1) :: bitsOfNum (v >>> 1) n = _
    rw [ih (v >>> 1), List.range_succ_eq_map, List.map_cons, List.map_map]
    congr 1
    apply List.map_congr_left
    intro k _
    simp only [Function.comp_apply, Nat.succ_eq_add_one]
    rw [← Nat.shiftRight_add]
    congr 2
    omega

/-- Concatenating consecutive `m`-bit windows of a file gives one long
window. -/
theorem bitSeq_flatten (data : List Nat) (m : Nat) :
    ∀ (c pos : Nat),
      ((List.range c).map (fun k => bitSeq data (pos + m * k) m)).flatten =
        bitSeq data pos (m * c) := by
  intro c
  induction c with
  | zero => intro pos; simp [bitSeq]
  | succ c ih =>
    intro pos
    rw [List.range_succ, List.map_append, List.flatten_append, ih pos]
    show bitSeq data pos (m * c) ++ (bitSeq data (pos + m * c) m ++ []) = _
    rw [List.append_nil, ← bitSeq_append]
    congr 1

/-- Bits at offsets ≥ 8 of a cons file are bits of the tail. -/
theorem fileBit_cons (b : Nat) (rest : List Nat) (k : Nat) :
    fileBit (b :: rest) (8 + k) = fileBit rest k := by
  unfold fileBit
  have hd : (8 + k) / 8 = k / 8 + 1 := by omega
  have hm : (8 + k) % 8 = k % 8 := by omega
  rw [hd, hm, List.getD_cons_succ]

theorem packBits_cons_chunk (c tail : List Nat) (hc : c.length = 8) :
    packBits (c ++ tail) = byteOfBits c :: packBits tail := by
  match c, hc with
  | c0 :: cs, hc =>
    rw [List.cons_append, packBits]
    rw [← List.cons_append c0 cs tail,
      List.take_append_of_le_length (by omega),
      List.take_of_length_le (by omega),
      List.drop_append_of_le_length (by omega),
      List.drop_eq_nil_of_le (by omega), List.nil_append]

/-- Packing the full bit expansion of a byte list reproduces it. -/
theorem packBits_bitSeq_bytes :
    ∀ (P : List Nat), (∀ b ∈ P, b < 256) →
      packBits (bitSeq P 0 (8 * P.length)) = P := by
  intro P
  induction P with
  | nil => intro _; simp [bitSeq, packBits]
  | cons b rest ih =>
    intro h
    have hb : b < 256 := h b (List.mem_cons_self _ _)
    have hsplit : 8 * (b :: rest).length = 8 + 8 * rest.length := by
      rw [List.length_cons]
      ring
    rw [hsplit, bitSeq_append]
    have hfirst : bitSeq (b :: rest) 0 8 = bitsOfNum b 8 := by
      rw [bitsOfNum_eq_map]
      apply List.map_congr_left
      intro k hk
      have hk8 : k < 8 := List.mem_range.1 hk
      unfold fileBit
      rw [Nat.zero_add]
      have hd : k / 8 = 0 := by omega
      have hm : k % 8 = k := by omega
      rw [hd, hm, List.getD_cons_zero]
    have hrest : bitSeq (b :: rest) (0 + 8) (8 * rest.length) =
        bitSeq rest 0 (8 * rest.length) := by
      unfold bitSeq
      apply List.map_congr_left
      intro k _
      rw [Nat.zero_add]
      have : 8 + k = 8 + (0 + k) := by omega
      rw [this, fileBit_cons]
    rw [hfirst, hrest, packBits_cons_chunk _ _ (bitsOfNum_length 8 b), byteOfBits_bitsOfNum,
      ih (fun x hx => h x (List.mem_cons_of_mem _ hx))]
    rw [show (2 : Nat) ^ 8 = 256 from by norm_num, Nat.mod_eq_of_lt hb]

namespace ImageDataStream

/-- One-step unfolding of `write_stream` (the `let`s substituted). -/
theorem write_stream_eq (s : ImageDataStream) (input : FileBitReader) :
    s.write_stream input =
      (match writeStreamLoop (s.write_header input.size) input 9
          (input.size * 8 % 2 ^ 64 / 7) with
       | none => none
       | some (s'', input') =>
         if input.size * 8 % 2 ^ 64 % 7 ≠ 0 then
           match input'.read_bits (input.size * 8 % 2 ^ 64 % 7) with
           | none => none
           | some (v, input'') =>
             some (s''.write_word ((9 + input.size * 8 % 2 ^ 64 / 7) % 2 ^ 32) v, input'')
         else some (s'', input')) := rfl

/-- One-step unfolding of `read_stream` (the `let`s substituted). -/
theorem read_stream_eq (s : ImageDataStream) (output : FileBitWriter) :
    s.read_stream output =
      (match readStreamLoop s 9 (s.read_header * 8 % 2 ^ 64 / 7) output with
       | none => none
       | some output' =>
         if s.read_header * 8 % 2 ^ 64 % 7 ≠ 0 then
           output'.write_bits (s.read_word ((9 + s.read_header * 8 % 2 ^ 64 / 7) % 2 ^ 32))
             (s.read_header * 8 % 2 ^ 64 % 7)
         else some output') := rfl

end ImageDataStream

namespace ImageDataStream

/-- Behaviour of `read_stream` on a carrier whose header and body words hold
the bit stream of a byte list `P`: it reproduces `P` on the output writer. -/
theorem read_stream_spec (t : ImageDataStream) (P : List Nat)
    (hhdr : t.read_header = P.length)
    (hP64 : P.length * 8 < 2 ^ 64)
    (haddr : 9 + P.length * 8 / 7 ≤ 2 ^ 32)
    (haddr2 : P.length * 8 % 7 ≠ 0 → 9 + P.length * 8 / 7 < 2 ^ 32)
    (hwords : ∀ k < P.length * 8 / 7, t.read_word (9 + k) = bitsVal P (7 * k) 7)
    (hlast : P.length * 8 % 7 ≠ 0 →
      t.read_word (9 + P.length * 8 / 7) = bitsVal P (7 * (P.length * 8 / 7)) (P.length * 8 % 7))
    (hbytes : ∀ b ∈ P, b < 256) :
    ∃ out', t.read_stream FileBitWriter.openFile = some out' ∧ out'.flush.out = P := by
  have h2_32 : (2 : Nat) ^ 32 = 4294967296 := by norm_num
  have hmod : P.length * 8 % 2 ^ 64 = P.length * 8 := Nat.mod_eq_of_lt hP64
  have hloop := readStreamLoop_spec (P.length * 8 / 7) t 9 FileBitWriter.openFile
  have hlist : (List.range (P.length * 8 / 7)).map
        (fun k => bitsOfNum (t.read_word ((9 + k) % 2 ^ 32)) 7) =
      (List.range (P.length * 8 / 7)).map (fun k => bitSeq P (0 + 7 * k) 7) := by
    apply List.map_congr_left
    intro k hk
    have hk' : k < P.length * 8 / 7 := List.mem_range.1 hk
    have h9k : (9 + k) % 2 ^ 32 = 9 + k := by
      apply Nat.mod_eq_of_lt
      rw [h2_32]
      rw [h2_32] at haddr
      omega
    rw [h9k, hwords k hk', bitsOfNum_bitsVal]
    congr 1
    omega
  rw [hlist, bitSeq_flatten P 7 (P.length * 8 / 7) 0] at hloop
  -- the final writer state in both cases
  have hbody : ∀ bs : List Nat, (∀ b ∈ bs, b ≤ 1) → bs = bitSeq P 0 (8 * P.length) →
      (bs.foldl FileBitWriter.write_bit FileBitWriter.openFile).flush.out = P := by
    intro bs hb hbs
    rw [flush_fold_out bs hb, hbs, packBits_bitSeq_bytes P hbytes]
  by_cases hrm : P.length * 8 % 7 = 0
  · -- no partial word
    have h78 : 7 * (P.length * 8 / 7) = 8 * P.length := by omega
    refine ⟨(bitSeq P 0 (7 * (P.length * 8 / 7))).foldl FileBitWriter.write_bit
      FileBitWriter.openFile, ?_, ?_⟩
    · rw [read_stream_eq, hhdr, hmod, hloop]
      show (if P.length * 8 % 7 ≠ 0 then
          (List.foldl FileBitWriter.write_bit FileBitWriter.openFile
              (bitSeq P 0 (7 * (P.length * 8 / 7)))).write_bits
            (t.read_word ((9 + P.length * 8 / 7) % 2 ^ 32)) (P.length * 8 % 7)
        else some (List.foldl FileBitWriter.write_bit FileBitWriter.openFile
            (bitSeq P 0 (7 * (P.length * 8 / 7))))) = _
      rw [if_neg (fun hcontra => hcontra hrm)]
    · exact hbody _ (by intro b hb; exact bitSeq_mem_le_one P 0 _ b hb)
        (by rw [h78])
  · -- a final partial word of `rem` bits
    have h9c : (9 + P.length * 8 / 7) % 2 ^ 32 = 9 + P.length * 8 / 7 :=
      Nat.mod_eq_of_lt (haddr2 hrm)
    have hwb : ((bitSeq P 0 (7 * (P.length * 8 / 7))).foldl FileBitWriter.write_bit
          FileBitWriter.openFile).write_bits
          (t.read_word ((9 + P.length * 8 / 7) % 2 ^ 32)) (P.length * 8 % 7) =
        some ((bitSeq P 0 (7 * (P.length * 8 / 7)) ++
            bitSeq P (0 + 7 * (P.length * 8 / 7)) (P.length * 8 % 7)).foldl
          FileBitWriter.write_bit FileBitWriter.openFile) := by
      unfold FileBitWriter.write_bits
      rw [if_pos ⟨by omega, by omega⟩, writeBitsAux_eq_foldl, h9c, hlast hrm,
        bitsOfNum_bitsVal, List.foldl_append,
        show (0 : Nat) + 7 * (P.length * 8 / 7) = 7 * (P.length * 8 / 7) from by omega]
    refine ⟨(bitSeq P 0 (7 * (P.length * 8 / 7)) ++
        bitSeq P (0 + 7 * (P.length * 8 / 7)) (P.length * 8 % 7)).foldl
      FileBitWriter.write_bit FileBitWriter.openFile, ?_, ?_⟩
    · rw [read_stream_eq, hhdr, hmod, hloop]
      show (if P.length * 8 % 7 ≠ 0 then
          (List.foldl FileBitWriter.write_bit FileBitWriter.openFile
              (bitSeq P 0 (7 * (P.length * 8 / 7)))).write_bits
            (t.read_word ((9 + P.length * 8 / 7) % 2 ^ 32)) (P.length * 8 % 7)
        else some (List.foldl FileBitWriter.write_bit FileBitWriter.openFile
            (bitSeq P 0 (7 * (P.length * 8 / 7))))) = _
      rw [if_pos hrm, hwb]
    · rw [← bitSeq_append]
      exact hbody _ (by intro b hb; exact bitSeq_mem_le_one P 0 _ b hb)
        (by congr 1; omega)

end ImageDataStream

namespace ImageDataStream

/-- Behaviour of `write_stream` on a square carrier with enough capacity:
it succeeds and deposits the header and the payload's bit stream into the
carrier's words. -/
theorem write_stream_spec (w : Nat) (img : Image) (P : List Nat)
    (hw : img.width = w) (hh : img.height = w) (hpix : img.pixels.length = w * w)
    (h32 : w * w ≤ 2 ^ 32)
    (hcap : 63 + 8 * P.length ≤ 7 * (w * w)) :
    ∃ s' input', (ImageDataStream.new img).write_stream (FileBitReader.openFile P) =
        some (s', input') ∧
      s'.read_header = P.length ∧
      (∀ k < P.length * 8 / 7, s'.read_word (9 + k) = bitsVal P (7 * k) 7) ∧
      (P.length * 8 % 7 ≠ 0 →
        s'.read_word (9 + P.length * 8 / 7) =
          bitsVal P (7 * (P.length * 8 / 7)) (P.length * 8 % 7)) := by
  have h2_32 : (2 : Nat) ^ 32 = 4294967296 := by norm_num
  have h2_64 : (2 : Nat) ^ 64 = 18446744073709551616 := by norm_num
  have hP64 : P.length * 8 < 2 ^ 64 := by
    rw [h2_64]
    rw [h2_32] at h32
    omega
  have hmod : P.length * 8 % 2 ^ 64 = P.length * 8 := Nat.mod_eq_of_lt hP64
  have hcnt_le : 9 + P.length * 8 / 7 ≤ w * w := by omega
  have hcnt_lt : P.length * 8 % 7 ≠ 0 → 9 + P.length * 8 / 7 + 1 ≤ w * w := by
    intro h
    omega
  have h63 : P.length < 2 ^ 63 := by
    have h : (2 : Nat) ^ 63 = 9223372036854775808 := by norm_num
    rw [h]
    rw [h2_32] at h32
    omega
  -- header phase
  have hsq0 : (ImageDataStream.new img).image.width =
      (ImageDataStream.new img).image.height := by
    show img.width = img.height
    rw [hw, hh]
  have hpixidx : ∀ a, (ImageDataStream.new img).pixelIndex a = a :=
    fun a => pixelIndex_square _ hsq0 a
  have hin9 : ∀ i < 9, (ImageDataStream.new img).pixelIndex i <
      (ImageDataStream.new img).image.pixels.length := by
    intro i hi
    rw [hpixidx i]
    show i < img.pixels.length
    omega
  have hinj9 : ∀ i < 9, ∀ j < 9, i ≠ j →
      (ImageDataStream.new img).pixelIndex i ≠ (ImageDataStream.new img).pixelIndex j := by
    intro i _ j _ hij
    rw [hpixidx i, hpixidx j]
    exact hij
  obtain ⟨⟨hHW, hHH, hHL⟩, hHwords, _⟩ :=
    write_header_spec (ImageDataStream.new img) P.length hin9 hinj9
  -- body loop phase
  have hsqH : ((ImageDataStream.new img).write_header P.length).image.width =
      ((ImageDataStream.new img).write_header P.length).image.height := by
    rw [hHW, hHH]
    exact hsq0
  obtain ⟨sL, hloop, hLW, hLH, hLL, hLwords, hLuntouched⟩ :=
    writeStreamLoop_spec (P.length * 8 / 7) ((ImageDataStream.new img).write_header P.length)
      (FileBitReader.openFile P) 9 hsqH
      (by
        rw [hHL]
        show 9 + P.length * 8 / 7 ≤ img.pixels.length
        omega)
      (by
        rw [h2_32]
        rw [h2_32] at h32
        omega)
      (by
        intro k hk
        show (0 + k) / 8 < P.length
        omega)
  have hLsq : sL.image.width = sL.image.height := by
    rw [hLW, hLH]
    exact hsqH
  have hpixL : ∀ a, sL.pixelIndex a = a := fun a => pixelIndex_square _ hLsq a
  have hLlen : sL.image.pixels.length = w * w := by
    rw [hLL, hHL]
    exact hpix
  have hsz : (FileBitReader.openFile P).size = P.length := rfl
  by_cases hrm : P.length * 8 % 7 = 0
  · -- aligned payload: no final partial word
    refine ⟨sL, FileBitReader.mk P.length P (0 + 7 * (P.length * 8 / 7)), ?_, ?_, ?_, ?_⟩
    · rw [write_stream_eq, hsz, hmod, hloop]
      show (if P.length * 8 % 7 ≠ 0 then
          (match (FileBitReader.mk P.length P (0 + 7 * (P.length * 8 / 7))).read_bits
              (P.length * 8 % 7) with
           | none => none
           | some (v, input'') =>
             some (sL.write_word ((9 + P.length * 8 / 7) % 2 ^ 32) v, input''))
        else some (sL, FileBitReader.mk P.length P (0 + 7 * (P.length * 8 / 7)))) = _
      rw [if_neg (fun hc => hc hrm)]
    · apply read_header_spec sL P.length h63
      intro i hi
      rw [hLuntouched i (Or.inl (by omega))]
      exact hHwords i hi
    · intro k hk
      rw [hLwords (9 + k) (by omega) (by omega)]
      show bitsVal P (0 + 7 * (9 + k - 9)) 7 = bitsVal P (7 * k) 7
      congr 1
      omega
    · intro hc
      exact absurd hrm hc
  · -- a final partial word of `rem` bits
    have hvrd : ∀ k < P.length * 8 % 7,
        ((FileBitReader.mk P.length P (0 + 7 * (P.length * 8 / 7))).bit_position + k) / 8 <
          (FileBitReader.mk P.length P (0 + 7 * (P.length * 8 / 7))).data.length := by
      intro k hk
      show (0 + 7 * (P.length * 8 / 7) + k) / 8 < P.length
      omega
    have hrd := FileBitReader.read_bits_spec
      (FileBitReader.mk P.length P (0 + 7 * (P.length * 8 / 7)))
      (P.length * 8 % 7) (by omega) (by omega) hvrd
    have h9c32 : (9 + P.length * 8 / 7) % 2 ^ 32 = 9 + P.length * 8 / 7 := by
      apply Nat.mod_eq_of_lt
      rw [h2_32]
      rw [h2_32] at h32
      omega
    have hlt : bitsVal P (0 + 7 * (P.length * 8 / 7)) (P.length * 8 % 7) < 128 := by
      have h1 := bitsVal_lt P (P.length * 8 % 7) (0 + 7 * (P.length * 8 / 7))
      have h2 : (2 : Nat) ^ (P.length * 8 % 7) ≤ 2 ^ 6 :=
        Nat.pow_le_pow_right (by norm_num) (by omega)
      have h3 : (2 : Nat) ^ 6 = 64 := by norm_num
      omega
    refine ⟨sL.write_word (9 + P.length * 8 / 7)
        (bitsVal P (0 + 7 * (P.length * 8 / 7)) (P.length * 8 % 7)),
      FileBitReader.mk P.length P (0 + 7 * (P.length * 8 / 7) + (P.length * 8 % 7)),
      ?_, ?_, ?_, ?_⟩
    · rw [write_stream_eq, hsz, hmod, hloop]
      show (if P.length * 8 % 7 ≠ 0 then
          (match (FileBitReader.mk P.length P (0 + 7 * (P.length * 8 / 7))).read_bits
              (P.length * 8 % 7) with
           | none => none
           | some (v, input'') =>
             some (sL.write_word ((9 + P.length * 8 / 7) % 2 ^ 32) v, input''))
        else some (sL, FileBitReader.mk P.length P (0 + 7 * (P.length * 8 / 7)))) = _
      rw [if_pos hrm, hrd]
      show some (sL.write_word ((9 + P.length * 8 / 7) % 2 ^ 32)
          (bitsVal P (0 + 7 * (P.length * 8 / 7)) (P.length * 8 % 7)),
        FileBitReader.mk P.length P (0 + 7 * (P.length * 8 / 7) + (P.length * 8 % 7))) = _
      rw [h9c32]
    · apply read_header_spec _ P.length h63
      intro i hi
      rw [read_word_write_word_ne sL _ _ i
        (by rw [hpixL i, hpixL (9 + P.length * 8 / 7)]; omega)]
      rw [hLuntouched i (Or.inl (by omega))]
      exact hHwords i hi
    · intro k hk
      rw [read_word_write_word_ne sL _ _ (9 + k)
        (by rw [hpixL (9 + k), hpixL (9 + P.length * 8 / 7)]; omega)]
      rw [hLwords (9 + k) (by omega) (by omega)]
      show bitsVal P (0 + 7 * (9 + k - 9)) 7 = bitsVal P (7 * k) 7
      congr 1
      omega
    · intro _
      rw [read_word_write_word_self sL _ _
        (by
          rw [hpixL (9 + P.length * 8 / 7), hLlen]
          have := hcnt_lt hrm
          omega)]
      rw [land_127, Nat.mod_eq_of_lt hlt]
      congr 1
      omega

end ImageDataStream

/-- C1 (amended): the embed/extract round trip reproduces the payload byte
for byte on square carriers.  For any payload byte list `P` and a square
`w × w` carrier (within the `u32` pixel address space, `w * w ≤ 2^32`) whose
capacity `7 * w * w` bits covers the 63 header bits plus `8 * |P|` payload
bits, `write_stream` succeeds, and `read_stream` on the resulting image
writes exactly the bytes of `P` to the output bit writer.  As stated — for
an arbitrary carrier of sufficient capacity — the claim is false, because
the `addr / height` address mapping makes distinct word addresses collide on
non-square images: see the counterexample. -/
theorem claim_C1_roundtrip (w : Nat) (img : Image) (P : List Nat)
    (hw : img.width = w) (hh : img.height = w) (hpix : img.pixels.length = w * w)
    (h32 : w * w ≤ 2 ^ 32)
    (hbytes : ∀ b ∈ P, b < 256)
    (hcap : 63 + 8 * P.length ≤ 7 * (w * w)) :
    ∃ s' input', (ImageDataStream.new img).write_stream (FileBitReader.openFile P) =
        some (s', input') ∧
      ∃ out', s'.read_stream FileBitWriter.openFile = some out' ∧
        out'.flush.out = P := by
  obtain ⟨s', input', hws, hhdr, hwords, hlast⟩ :=
    ImageDataStream.write_stream_spec w img P hw hh hpix h32 hcap
  have h2_32 : (2 : Nat) ^ 32 = 4294967296 := by norm_num
  have h2_64 : (2 : Nat) ^ 64 = 18446744073709551616 := by norm_num
  refine ⟨s', input', hws, ?_⟩
  apply ImageDataStream.read_stream_spec s' P hhdr
  · rw [h2_64]
    rw [h2_32] at h32
    omega
  · rw [h2_32]
    rw [h2_32] at h32
    omega
  · intro hrm
    rw [h2_32]
    rw [h2_32] at h32
    omega
  · exact hwords
  · exact hlast
  · exact hbytes

theorem claim_C1_roundtrip_witness :
    ∃ s' input', (ImageDataStream.new ⟨4, 4, List.replicate 16 ⟨0, 0, 0⟩⟩).write_stream
        (FileBitReader.openFile [255]) = some (s', input') ∧
      ∃ out', s'.read_stream FileBitWriter.openFile = some out' ∧
        out'.flush.out = [255] :=
  claim_C1_roundtrip 4 ⟨4, 4, List.replicate 16 ⟨0, 0, 0⟩⟩ [255] rfl rfl (by decide)
    (by norm_num) (by decide) (by norm_num)

/-- C1 counterexample: the round trip as stated fails on a non-square
carrier of sufficient capacity.  A 3×4 all-black image has capacity
`84 ≥ 63 + 8` bits for the one-byte payload `0xFF`, but the `addr / height`
mapping sends header addresses 0 and 3 to the same pixel, so the header is
clobbered: extraction reads payload length 0 and writes nothing, not
`[0xFF]`. -/
theorem claim_C1_roundtrip_counterexample :
    (match (ImageDataStream.new ⟨3, 4, List.replicate 12 ⟨0, 0, 0⟩⟩).write_stream
        (FileBitReader.openFile [255]) with
     | none => none
     | some (s', _) =>
       match s'.read_stream FileBitWriter.openFile with
       | none => none
       | some out' => some out'.flush.out) ≠ some [255] := by
  decide
